import Mathlib

/-!
Verification of the flag-extraction and context-composition pipeline of
`hooks/UserPromptSubmit/ultimate_prompt_hook_enhanced.py`.

Strings are modeled as `List Char`.  The Python regular expressions are
modeled by deterministic scanners over the character classes they use;
the character classes (`\s`, `[a-zA-Z_]`, `\w`) are modeled over their
ASCII behavior.  The companion module `ultimate-prompt-hook.py` is not
part of the repository, so the modeled configuration is the fallback one
(`USE_BASE_HANDLERS = False`): the fallback `parse_flags`,
`should_apply_defaults`, `PromptEnhancer` and `write_log` defined in this
file are in effect, and base (generic) flags resolve to no handler.
-/

namespace Hook

/-- ASCII whitespace, the characters Python `\s`, `str.strip` and
`str.rstrip` treat as whitespace in the ASCII range. -/
def isSpc (c : Char) : Bool :=
  c == ' ' || c == '\t' || c == '\n' || c == '\r' || c == '\x0b' || c == '\x0c'

/-- The regex class `[a-zA-Z_]` used by the flag patterns. -/
def isWordChr (c : Char) : Bool :=
  c.isAlpha || c == '_'

/-- The regex class `\w` (ASCII), which decides `\b` word boundaries. -/
def isWChr (c : Char) : Bool :=
  c.isAlphanum || c == '_'

/-- Python `str.lower` over the ASCII range. -/
def lowerL (s : List Char) : List Char := s.map Char.toLower

/-- Python `str.rstrip()`. -/
def rstripL (s : List Char) : List Char := (s.reverse.dropWhile isSpc).reverse

/-- Python `str.strip()`. -/
def stripL (s : List Char) : List Char := rstripL (s.dropWhile isSpc)

/-- Erase every whitespace character (used to state "reconstructs the
original modulo whitespace"). -/
def eraseWS (s : List Char) : List Char := s.filter (fun c => !isSpc c)

theorem length_dropWhile_lt_of_takeWhile_ne {p : Char → Bool} {s : List Char}
    (h : (s.takeWhile p).isEmpty = false) :
    (s.dropWhile p).length < s.length := by
  cases s with
  | nil => simp [List.takeWhile] at h
  | cons a t =>
    by_cases hp : p a
    · rw [List.dropWhile_cons_of_pos hp]
      exact Nat.lt_succ_of_le (List.dropWhile_sublist p).length_le
    · rw [List.takeWhile_cons_of_neg (by simpa using hp)] at h
      simp at h

/-- The trailing-flag-run matcher: does `s` match the whole of
`((?:^|\s+)-[a-zA-Z_]+)+` (consuming all of `s`)?  `needWS` is true when
the first repetition must take the `\s+` alternative (every repetition
after the first must, and the first must unless the match is anchored at
position 0 where `^` applies).  The regex subparts act on disjoint
character classes, so the backtracking search is equivalent to this
deterministic maximal-run scan. -/
def matchRunF : Nat → Bool → List Char → Bool
  | 0, _, _ => false
  | fuel + 1, true, s =>
    if (s.takeWhile isSpc).isEmpty then false
    else matchRunF fuel false (s.dropWhile isSpc)
  | _ + 1, false, [] => false
  | fuel + 1, false, c :: rest =>
    if c = '-' then
      if (rest.takeWhile isWordChr).isEmpty then false
      else
        if (rest.dropWhile isWordChr).isEmpty then true
        else matchRunF fuel true (rest.dropWhile isWordChr)
    else false

/-- The matcher proper: every recursive step of `matchRunF` consumes at
least one character, so `s.length + 1` fuel always suffices. -/
def matchRun (b : Bool) (s : List Char) : Bool := matchRunF (s.length + 1) b s

/-- Python `$` matches at the very end of the string or just before a
single final newline; a successful match of the trailing-flag pattern
must therefore consume exactly this "core" (it always ends in a word
character, so the final-newline variant applies exactly when the string
ends in a newline). -/
def coreStr (s : List Char) : List Char :=
  if s.getLast? = some '\n' then s.dropLast else s

/-- Whether `re.search` of `((?:^|\s+)-[a-zA-Z_]+)+$` can match starting
at index `i`: the `^` alternative is available only at index 0. -/
def matchesAt (s : List Char) (i : Nat) : Bool :=
  (decide (i = 0) && matchRun false ((coreStr s).drop i)) ||
    matchRun true ((coreStr s).drop i)

/-- Leftmost match start, as `re.search` finds it: the scan tries each
starting index left to right (`fuel` counts the remaining start indices,
so the search visits `i, i+1, …, i+fuel-1`). -/
def searchFrom (s : List Char) : Nat → Nat → Option Nat
  | _, 0 => none
  | i, fuel + 1 => if matchesAt s i then some i else searchFrom s (i + 1) fuel

def findMatchStart (s : List Char) : Option Nat := searchFrom s 0 (s.length + 1)

/-- `re.findall(r"-([a-zA-Z_]+)", s)`: leftmost non-overlapping matches,
each capturing a maximal run of `[a-zA-Z_]` after a dash. -/
def findFlagsF : Nat → List Char → List (List Char)
  | 0, _ => []
  | _ + 1, [] => []
  | fuel + 1, c :: rest =>
    if c = '-' then
      if (rest.takeWhile isWordChr).isEmpty then findFlagsF fuel rest
      else (rest.takeWhile isWordChr) :: findFlagsF fuel (rest.dropWhile isWordChr)
    else findFlagsF fuel rest

def findFlags (s : List Char) : List (List Char) := findFlagsF (s.length + 1) s

/-- The source's `parse_flags`: search for the trailing flag run; on a
match, the text before it (right-stripped) is the clean prompt and the
flags are extracted from the matched region; otherwise the prompt is
returned unchanged with no flags. -/
def parse_flags (prompt : List Char) : List Char × List (List Char) :=
  match findMatchStart prompt with
  | some i => (rstripL (prompt.take i), findFlags ((coreStr prompt).drop i))
  | none => (prompt, [])

/-- The maximal runs of `[a-zA-Z_]` characters of `s`, in order: used to
state that extraction returns the flag tokens in left-to-right order with
leading dashes stripped. -/
def wordRunsF : Nat → List Char → List (List Char)
  | 0, _ => []
  | _ + 1, [] => []
  | fuel + 1, c :: rest =>
    if isWordChr c then
      (c :: rest.takeWhile isWordChr) :: wordRunsF fuel (rest.dropWhile isWordChr)
    else wordRunsF fuel rest

def wordRuns (s : List Char) : List (List Char) := wordRunsF (s.length + 1) s

/-- Contiguous-substring test (used to state "the output contains the
fragment"). -/
def hasSub (s pat : List Char) : Bool :=
  match s with
  | [] => pat.isEmpty
  | c :: rest => pat.isPrefixOf (c :: rest) || hasSub rest pat

/-! ### Lemmas about the flag-run matcher -/

theorem isSpc_elim {c : Char} (h : isSpc c = true) :
    c = ' ' ∨ c = '\t' ∨ c = '\n' ∨ c = '\r' ∨ c = '\x0b' ∨ c = '\x0c' := by
  simp only [isSpc, Bool.or_eq_true, beq_iff_eq] at h
  tauto

theorem isWordChr_eq_false_of_isSpc {c : Char} (h : isSpc c = true) :
    isWordChr c = false := by
  rcases isSpc_elim h with rfl | rfl | rfl | rfl | rfl | rfl <;> decide

theorem ne_dash_of_isSpc {c : Char} (h : isSpc c = true) : ¬ c = '-' := by
  rcases isSpc_elim h with rfl | rfl | rfl | rfl | rfl | rfl <;> decide

theorem exists_cons_of_takeWhile_ne {p : Char → Bool} {l : List Char}
    (h : l.takeWhile p ≠ []) : ∃ c l', l = c :: l' ∧ p c = true := by
  cases l with
  | nil => simp at h
  | cons c l' =>
    refine ⟨c, l', rfl, ?_⟩
    by_contra hc
    rw [List.takeWhile_cons_of_neg (by simpa using hc)] at h
    exact h rfl

theorem head_not_of_dropWhile_head? {p : Char → Bool} {l : List Char} {c : Char}
    (h : (l.dropWhile p).head? = some c) : p c = false := by
  have hd := List.head?_dropWhile_not p l
  rw [h] at hd
  exact hd

theorem matchRunF_nil (f : Nat) (b : Bool) : matchRunF f b [] = false := by
  cases f with
  | zero => rfl
  | succ f => cases b <;> simp [matchRunF]

/-- The result of `matchRunF` does not depend on the fuel once the fuel
exceeds the length of the input. -/
theorem matchRunF_fuel : ∀ n (f : Nat) (b : Bool) (s : List Char),
    s.length ≤ n → s.length < f → matchRunF f b s = matchRun b s := by
  intro n
  induction n with
  | zero =>
    intro f b s hlen hf
    have hs : s = [] := List.length_eq_zero.mp (Nat.le_zero.mp hlen)
    subst hs
    rw [matchRunF_nil, matchRun, matchRunF_nil]
  | succ n ih =>
    intro f b s hlen hf
    cases f with
    | zero => omega
    | succ f =>
      cases b with
      | true =>
        rw [matchRun, matchRunF, matchRunF]
        by_cases h : (s.takeWhile isSpc).isEmpty
        · rw [if_pos h, if_pos h]
        · rw [if_neg h, if_neg h]
          have hd := length_dropWhile_lt_of_takeWhile_ne
            (p := isSpc) (s := s) (by simpa using h)
          rw [ih f false _ (by omega) (by omega),
            ih s.length false _ (by omega) (by omega)]
      | false =>
        cases s with
        | nil => rw [matchRunF_nil, matchRun, matchRunF_nil]
        | cons c rest =>
          rw [matchRun, List.length_cons, matchRunF, matchRunF]
          by_cases hc : c = '-'
          · rw [if_pos hc, if_pos hc]
            by_cases h1 : (rest.takeWhile isWordChr).isEmpty
            · rw [if_pos h1, if_pos h1]
            · rw [if_neg h1, if_neg h1]
              by_cases h2 : (rest.dropWhile isWordChr).isEmpty
              · rw [if_pos h2, if_pos h2]
              · rw [if_neg h2, if_neg h2]
                have hd := (List.dropWhile_sublist isWordChr (l := rest)).length_le
                simp only [List.length_cons] at hlen hf
                rw [ih f true _ (by omega) (by omega),
                  ih (rest.length + 1) true _ (by omega) (by omega)]
          · rw [if_neg hc, if_neg hc]

theorem matchRun_true_unfold (s : List Char) :
    matchRun true s =
      if (s.takeWhile isSpc).isEmpty then false
      else matchRun false (s.dropWhile isSpc) := by
  rw [matchRun, matchRunF]
  by_cases h : (s.takeWhile isSpc).isEmpty
  · rw [if_pos h, if_pos h]
  · rw [if_neg h, if_neg h]
    exact matchRunF_fuel (s.dropWhile isSpc).length s.length false _ (Nat.le_refl _)
      (length_dropWhile_lt_of_takeWhile_ne (by simpa using h))

theorem matchRun_false_cons_unfold (c : Char) (rest : List Char) :
    matchRun false (c :: rest) =
      if c = '-' then
        if (rest.takeWhile isWordChr).isEmpty then false
        else
          if (rest.dropWhile isWordChr).isEmpty then true
          else matchRun true (rest.dropWhile isWordChr)
      else false := by
  rw [matchRun, List.length_cons, matchRunF]
  by_cases hc : c = '-'
  · rw [if_pos hc, if_pos hc]
    by_cases h1 : (rest.takeWhile isWordChr).isEmpty
    · rw [if_pos h1, if_pos h1]
    · rw [if_neg h1, if_neg h1]
      by_cases h2 : (rest.dropWhile isWordChr).isEmpty
      · rw [if_pos h2, if_pos h2]
      · rw [if_neg h2, if_neg h2]
        exact matchRunF_fuel (rest.dropWhile isWordChr).length (rest.length + 1)
          true _ (Nat.le_refl _)
          (Nat.lt_succ_of_le (List.dropWhile_sublist isWordChr).length_le)
  · rw [if_neg hc, if_neg hc]

theorem matchRun_nil (b : Bool) : matchRun b [] = false := by
  rw [matchRun, matchRunF_nil]

theorem matchRun_ne_nil {b : Bool} {t : List Char} (h : matchRun b t = true) :
    t ≠ [] := by
  rintro rfl
  rw [matchRun_nil] at h
  cases h

theorem matchRun_true_iff {s : List Char} :
    matchRun true s = true ↔
      s.takeWhile isSpc ≠ [] ∧ matchRun false (s.dropWhile isSpc) = true := by
  rw [matchRun_true_unfold]
  by_cases h : (s.takeWhile isSpc).isEmpty
  · rw [if_pos h]
    constructor
    · intro hh
      cases hh
    · rintro ⟨h1, -⟩
      exact absurd (List.isEmpty_iff.mp h) h1
  · rw [if_neg h]
    constructor
    · intro hh
      exact ⟨fun hc => h (by simp [hc]), hh⟩
    · intro hh
      exact hh.2

theorem matchRun_false_cons_iff {c : Char} {rest : List Char} :
    matchRun false (c :: rest) = true ↔
      c = '-' ∧ rest.takeWhile isWordChr ≠ [] ∧
        (rest.dropWhile isWordChr = [] ∨
          matchRun true (rest.dropWhile isWordChr) = true) := by
  rw [matchRun_false_cons_unfold]
  by_cases hc : c = '-'
  · rw [if_pos hc]
    by_cases h1 : (rest.takeWhile isWordChr).isEmpty
    · rw [if_pos h1]
      constructor
      · intro hh
        cases hh
      · rintro ⟨-, h1', -⟩
        exact absurd (List.isEmpty_iff.mp h1) h1'
    · rw [if_neg h1]
      by_cases h2 : (rest.dropWhile isWordChr).isEmpty
      · rw [if_pos h2]
        exact ⟨fun _ => ⟨hc, fun hcon => h1 (by simp [hcon]),
          Or.inl (List.isEmpty_iff.mp h2)⟩, fun _ => rfl⟩
      · rw [if_neg h2]
        constructor
        · intro hh
          exact ⟨hc, fun hcon => h1 (by simp [hcon]), Or.inr hh⟩
        · rintro ⟨-, -, hcase | hcase⟩
          · exact absurd (by simp [hcase]) h2
          · exact hcase
  · rw [if_neg hc]
    constructor
    · intro hh
      cases hh
    · rintro ⟨hc', -⟩
      exact absurd hc' hc

theorem head_isSpc_of_matchRun_true {r : List Char} (h : matchRun true r = true) :
    ∃ c r', r = c :: r' ∧ isSpc c = true := by
  rw [matchRun_true_iff] at h
  exact exists_cons_of_takeWhile_ne h.1

theorem matchRun_true_ws_append {W r : List Char}
    (hW : ∀ c ∈ W, isSpc c = true) (hr : matchRun true r = true) :
    matchRun true (W ++ r) = true := by
  rw [matchRun_true_iff] at hr ⊢
  obtain ⟨h1, h2⟩ := hr
  constructor
  · rw [List.takeWhile_append_of_pos hW]
    intro hcon
    exact h1 (List.append_eq_nil.mp hcon).2
  · rw [List.dropWhile_append_of_pos hW]
    exact h2

theorem matchRun_append {r : List Char} (hr : matchRun true r = true) :
    ∀ n (b : Bool) (t : List Char), t.length ≤ n → matchRun b t = true →
      matchRun b (t ++ r) = true := by
  intro n
  induction n with
  | zero =>
    intro b t hlen h
    have := matchRun_ne_nil h
    cases t with
    | nil => exact absurd rfl this
    | cons c t' => simp at hlen
  | succ n ih =>
    intro b t hlen h
    cases b with
    | true =>
      rw [matchRun_true_iff] at h ⊢
      obtain ⟨h1, h2⟩ := h
      have hdrop_ne : t.dropWhile isSpc ≠ [] := matchRun_ne_nil h2
      constructor
      · rw [List.takeWhile_append]
        split
        · intro hcon
          rcases List.append_eq_nil.mp hcon with ⟨rfl, -⟩
          exact h1 (by simp)
        · exact h1
      · rw [List.dropWhile_append,
          if_neg (by simpa [List.isEmpty_iff] using hdrop_ne)]
        refine ih false _ ?_ h2
        have := length_dropWhile_lt_of_takeWhile_ne
          (p := isSpc) (s := t) (by simpa [List.isEmpty_iff] using h1)
        omega
    | false =>
      cases t with
      | nil => rw [matchRun_nil] at h; cases h
      | cons ch rest =>
        rw [matchRun_false_cons_iff] at h
        obtain ⟨rfl, h1, h2⟩ := h
        rw [List.cons_append, matchRun_false_cons_iff]
        refine ⟨rfl, ?_, ?_⟩
        · rcases h2 with h2 | h2
          · -- rest is all word characters
            have hall : ∀ a ∈ rest, isWordChr a = true := by
              intro a ha
              have : rest.takeWhile isWordChr = rest := by
                conv_rhs => rw [← List.takeWhile_append_dropWhile isWordChr rest, h2]
                simp
              exact List.mem_takeWhile_imp (this ▸ ha)
            rw [List.takeWhile_append_of_pos hall]
            intro hcon
            rcases List.append_eq_nil.mp hcon with ⟨rfl, -⟩
            exact h1 (by simp)
          · rw [List.takeWhile_append]
            split
            · intro hcon
              rcases List.append_eq_nil.mp hcon with ⟨rfl, -⟩
              exact h1 (by simp)
            · exact h1
        · obtain ⟨cr, r', rfl, hcr⟩ := head_isSpc_of_matchRun_true hr
          rcases h2 with h2 | h2
          · -- the whole of rest is the final word: the appended part starts
            -- the next whitespace block
            have hall : ∀ a ∈ rest, isWordChr a = true := by
              intro a ha
              have : rest.takeWhile isWordChr = rest := by
                conv_rhs => rw [← List.takeWhile_append_dropWhile isWordChr rest, h2]
                simp
              exact List.mem_takeWhile_imp (this ▸ ha)
            rw [List.dropWhile_append_of_pos hall]
            rw [List.dropWhile_cons_of_neg
              (by simp [isWordChr_eq_false_of_isSpc hcr])]
            exact Or.inr hr
          · -- rest = word ++ rest2 with rest2 a further block chain
            have hrest : rest.takeWhile isWordChr ++ rest.dropWhile isWordChr = rest :=
              List.takeWhile_append_dropWhile isWordChr rest
            obtain ⟨d, rest2', hd, hdw⟩ :
                ∃ d rest2' , rest.dropWhile isWordChr = d :: rest2' ∧ isWordChr d = false := by
              cases hcase : rest.dropWhile isWordChr with
              | nil => exact absurd hcase (matchRun_ne_nil h2)
              | cons d rest2' =>
                exact ⟨d, rest2', rfl, head_not_of_dropWhile_head? (by rw [hcase]; rfl)⟩
            have e1 : (rest ++ cr :: r').dropWhile isWordChr =
                rest.dropWhile isWordChr ++ cr :: r' := by
              conv_lhs => rw [← hrest]
              rw [List.append_assoc,
                List.dropWhile_append_of_pos
                  (fun a ha => List.mem_takeWhile_imp ha)]
              rw [hd, List.cons_append,
                List.dropWhile_cons_of_neg (by simp [hdw])]
            rw [e1]
            refine Or.inr (ih true _ ?_ h2)
            have hle := (List.dropWhile_sublist isWordChr (l := rest)).length_le
            simp only [List.length_cons] at hlen
            omega

/-! ### The leftmost-match search -/

theorem searchFrom_some {s : List Char} :
    ∀ (fuel i k : Nat), searchFrom s i fuel = some k →
      i ≤ k ∧ matchesAt s k = true ∧
        ∀ j, i ≤ j → j < k → matchesAt s j = false := by
  intro fuel
  induction fuel with
  | zero =>
    intro i k h
    simp [searchFrom] at h
  | succ fuel ih =>
    intro i k h
    rw [searchFrom] at h
    by_cases hm : matchesAt s i = true
    · rw [if_pos hm] at h
      cases h
      exact ⟨Nat.le_refl _, hm, fun j hj hlt => absurd hlt (by omega)⟩
    · rw [if_neg hm] at h
      obtain ⟨h1, h2, h3⟩ := ih (i + 1) k h
      refine ⟨by omega, h2, fun j hj hlt => ?_⟩
      rcases Nat.eq_or_lt_of_le hj with rfl | hgt
      · simpa using hm
      · exact h3 j (by omega) hlt

theorem searchFrom_none {s : List Char} :
    ∀ (fuel i : Nat), (∀ j, i ≤ j → j < i + fuel → matchesAt s j = false) →
      searchFrom s i fuel = none := by
  intro fuel
  induction fuel with
  | zero => intro i h; rfl
  | succ fuel ih =>
    intro i h
    rw [searchFrom, if_neg (by simp [h i (Nat.le_refl i) (by omega)])]
    exact ih (i + 1) (fun j hj hlt => h j (by omega) (by omega))

theorem findMatchStart_some {s : List Char} {i : Nat}
    (h : findMatchStart s = some i) :
    matchesAt s i = true ∧ ∀ j, j < i → matchesAt s j = false := by
  obtain ⟨-, h2, h3⟩ := searchFrom_some (s := s) (s.length + 1) 0 i h
  exact ⟨h2, fun j hj => h3 j (Nat.zero_le j) hj⟩

theorem findMatchStart_none {s : List Char}
    (h : ∀ j, j ≤ s.length → matchesAt s j = false) :
    findMatchStart s = none :=
  searchFrom_none (s.length + 1) 0 (fun j _ hlt => h j (by omega))

/-! ### Fuel elimination for `findFlagsF` and `wordRunsF` -/

theorem findFlagsF_nil (f : Nat) : findFlagsF f [] = [] := by
  cases f <;> rfl

theorem findFlagsF_fuel : ∀ n (f : Nat) (s : List Char),
    s.length ≤ n → s.length < f → findFlagsF f s = findFlags s := by
  intro n
  induction n with
  | zero =>
    intro f s hlen hf
    have hs : s = [] := List.length_eq_zero.mp (Nat.le_zero.mp hlen)
    subst hs
    rw [findFlagsF_nil, findFlags, findFlagsF_nil]
  | succ n ih =>
    intro f s hlen hf
    cases f with
    | zero => omega
    | succ f =>
      cases s with
      | nil => rw [findFlagsF_nil, findFlags, findFlagsF_nil]
      | cons c rest =>
        rw [findFlags, List.length_cons, findFlagsF, findFlagsF]
        simp only [List.length_cons] at hlen hf
        have hd := (List.dropWhile_sublist isWordChr (l := rest)).length_le
        by_cases hc : c = '-'
        · rw [if_pos hc, if_pos hc]
          by_cases h1 : (rest.takeWhile isWordChr).isEmpty
          · rw [if_pos h1, if_pos h1, ih f rest (by omega) (by omega),
              ih (rest.length + 1) rest (by omega) (by omega)]
          · rw [if_neg h1, if_neg h1, ih f _ (by omega) (by omega),
              ih (rest.length + 1) _ (by omega) (by omega)]
        · rw [if_neg hc, if_neg hc, ih f rest (by omega) (by omega),
            ih (rest.length + 1) rest (by omega) (by omega)]

theorem findFlags_nil : findFlags [] = [] := rfl

theorem findFlags_cons_unfold (c : Char) (rest : List Char) :
    findFlags (c :: rest) =
      if c = '-' then
        if (rest.takeWhile isWordChr).isEmpty then findFlags rest
        else (rest.takeWhile isWordChr) ::
          findFlags (rest.dropWhile isWordChr)
      else findFlags rest := by
  rw [findFlags, List.length_cons, findFlagsF]
  have hd := (List.dropWhile_sublist isWordChr (l := rest)).length_le
  by_cases hc : c = '-'
  · rw [if_pos hc, if_pos hc]
    by_cases h1 : (rest.takeWhile isWordChr).isEmpty
    · rw [if_pos h1, if_pos h1,
        findFlagsF_fuel rest.length (rest.length + 1) rest (Nat.le_refl _) (by omega)]
    · rw [if_neg h1, if_neg h1,
        findFlagsF_fuel _ (rest.length + 1) _ (Nat.le_refl _) (by omega)]
  · rw [if_neg hc, if_neg hc,
      findFlagsF_fuel rest.length (rest.length + 1) rest (Nat.le_refl _) (by omega)]

theorem wordRunsF_nil (f : Nat) : wordRunsF f [] = [] := by
  cases f <;> rfl

theorem wordRunsF_fuel : ∀ n (f : Nat) (s : List Char),
    s.length ≤ n → s.length < f → wordRunsF f s = wordRuns s := by
  intro n
  induction n with
  | zero =>
    intro f s hlen hf
    have hs : s = [] := List.length_eq_zero.mp (Nat.le_zero.mp hlen)
    subst hs
    rw [wordRunsF_nil, wordRuns, wordRunsF_nil]
  | succ n ih =>
    intro f s hlen hf
    cases f with
    | zero => omega
    | succ f =>
      cases s with
      | nil => rw [wordRunsF_nil, wordRuns, wordRunsF_nil]
      | cons c rest =>
        rw [wordRuns, List.length_cons, wordRunsF, wordRunsF]
        simp only [List.length_cons] at hlen hf
        have hd := (List.dropWhile_sublist isWordChr (l := rest)).length_le
        by_cases hc : isWordChr c
        · rw [if_pos hc, if_pos hc, ih f _ (by omega) (by omega),
            ih (rest.length + 1) _ (by omega) (by omega)]
        · rw [if_neg hc, if_neg hc, ih f rest (by omega) (by omega),
            ih (rest.length + 1) rest (by omega) (by omega)]

theorem wordRuns_nil : wordRuns [] = [] := rfl

theorem wordRuns_cons_unfold (c : Char) (rest : List Char) :
    wordRuns (c :: rest) =
      if isWordChr c then
        (c :: rest.takeWhile isWordChr) :: wordRuns (rest.dropWhile isWordChr)
      else wordRuns rest := by
  rw [wordRuns, List.length_cons, wordRunsF]
  have hd := (List.dropWhile_sublist isWordChr (l := rest)).length_le
  by_cases hc : isWordChr c
  · rw [if_pos hc, if_pos hc,
      wordRunsF_fuel _ (rest.length + 1) _ (Nat.le_refl _) (by omega)]
  · rw [if_neg hc, if_neg hc,
      wordRunsF_fuel rest.length (rest.length + 1) rest (Nat.le_refl _) (by omega)]

/-! ### Extraction equals the in-order word runs on matched regions -/

theorem findFlags_cons_not_dash {c : Char} (hc : ¬ c = '-') (t : List Char) :
    findFlags (c :: t) = findFlags t := by
  rw [findFlags_cons_unfold, if_neg hc]

theorem wordRuns_cons_not_word {c : Char} (hc : isWordChr c = false)
    (t : List Char) : wordRuns (c :: t) = wordRuns t := by
  rw [wordRuns_cons_unfold, if_neg (by simp [hc])]

theorem findFlags_ws_append {W : List Char}
    (hW : ∀ c ∈ W, isSpc c = true) (t : List Char) :
    findFlags (W ++ t) = findFlags t := by
  induction W with
  | nil => rfl
  | cons c W ih =>
    rw [List.cons_append,
      findFlags_cons_not_dash (ne_dash_of_isSpc (hW c (List.mem_cons_self c W))) _,
      ih (fun d hd => hW d (List.mem_cons_of_mem c hd))]

theorem wordRuns_ws_append {W : List Char}
    (hW : ∀ c ∈ W, isSpc c = true) (t : List Char) :
    wordRuns (W ++ t) = wordRuns t := by
  induction W with
  | nil => rfl
  | cons c W ih =>
    rw [List.cons_append,
      wordRuns_cons_not_word
        (isWordChr_eq_false_of_isSpc (hW c (List.mem_cons_self c W))) _,
      ih (fun d hd => hW d (List.mem_cons_of_mem c hd))]

theorem findFlags_eq_wordRuns_of_matchRun :
    ∀ n (b : Bool) (t : List Char), t.length ≤ n → matchRun b t = true →
      findFlags t = wordRuns t := by
  intro n
  induction n with
  | zero =>
    intro b t hlen hm
    have := matchRun_ne_nil hm
    cases t with
    | nil => exact absurd rfl this
    | cons c t' => simp at hlen
  | succ n ih =>
    intro b t hlen hm
    cases b with
    | true =>
      rw [matchRun_true_iff] at hm
      obtain ⟨h1, h2⟩ := hm
      have hT : ∀ c ∈ t.takeWhile isSpc, isSpc c = true :=
        fun c hc => List.mem_takeWhile_imp hc
      have hlt := length_dropWhile_lt_of_takeWhile_ne
        (p := isSpc) (s := t) (by simpa [List.isEmpty_iff] using h1)
      calc findFlags t
          = findFlags (t.takeWhile isSpc ++ t.dropWhile isSpc) := by
            rw [List.takeWhile_append_dropWhile]
        _ = findFlags (t.dropWhile isSpc) := findFlags_ws_append hT _
        _ = wordRuns (t.dropWhile isSpc) := ih false _ (by omega) h2
        _ = wordRuns (t.takeWhile isSpc ++ t.dropWhile isSpc) :=
            (wordRuns_ws_append hT _).symm
        _ = wordRuns t := by rw [List.takeWhile_append_dropWhile]
    | false =>
      cases t with
      | nil => rw [matchRun_nil] at hm; cases hm
      | cons ch rest =>
        rw [matchRun_false_cons_iff] at hm
        obtain ⟨rfl, h1, h2⟩ := hm
        obtain ⟨d, rest', hrest, hd⟩ := exists_cons_of_takeWhile_ne h1
        subst hrest
        rw [findFlags_cons_unfold, if_pos rfl,
          if_neg (by rw [List.takeWhile_cons_of_pos hd]; simp)]
        rw [wordRuns_cons_not_word (by decide) _,
          wordRuns_cons_unfold, if_pos hd]
        rw [List.takeWhile_cons_of_pos hd, List.dropWhile_cons_of_pos hd]
        rw [List.dropWhile_cons_of_pos hd] at h2
        congr 1
        rcases h2 with h2 | h2
        · rw [h2, findFlags_nil, wordRuns_nil]
        · have hdle := (List.dropWhile_sublist isWordChr (l := rest')).length_le
          simp only [List.length_cons] at hlen
          exact ih true _ (by omega) h2

/-! ### `rstripL` and `coreStr` facts -/

theorem rstripL_spec (s : List Char) :
    rstripL s ++ (s.reverse.takeWhile isSpc).reverse = s := by
  calc rstripL s ++ (s.reverse.takeWhile isSpc).reverse
      = (s.reverse.takeWhile isSpc ++ s.reverse.dropWhile isSpc).reverse := by
        rw [List.reverse_append, rstripL]
    _ = s := by rw [List.takeWhile_append_dropWhile, List.reverse_reverse]

theorem mem_rstrip_tail_isSpc {s : List Char} {c : Char}
    (hc : c ∈ (s.reverse.takeWhile isSpc).reverse) : isSpc c = true :=
  List.mem_takeWhile_imp (List.mem_reverse.mp hc)

theorem rstripL_getLast?_not_spc {s : List Char} {c : Char}
    (h : (rstripL s).getLast? = some c) : isSpc c = false := by
  rw [rstripL, List.getLast?_reverse] at h
  exact head_not_of_dropWhile_head? h

theorem coreStr_rstripL (s : List Char) : coreStr (rstripL s) = rstripL s := by
  rw [coreStr]
  split
  · rename_i h
    have := rstripL_getLast?_not_spc h
    simp [isSpc] at this
  · rfl

theorem coreStr_spec (s : List Char) :
    ∃ W, s = coreStr s ++ W ∧ ∀ c ∈ W, isSpc c = true := by
  rw [coreStr]
  split
  · rename_i h
    have hne : s ≠ [] := by rintro rfl; simp at h
    refine ⟨['\n'], ?_, ?_⟩
    · have hgl : s.getLast hne = '\n' := by
        rw [List.getLast?_eq_getLast s hne] at h
        exact Option.some_injective _ h
      conv_lhs => rw [← List.dropLast_concat_getLast hne, hgl]
    · intro c hc
      simp at hc
      subst hc
      decide
  · exact ⟨[], by simp, by simp⟩

/-! ### `matchesAt` and the main extraction theorems -/

theorem matchesAt_elim {s : List Char} {i : Nat} (h : matchesAt s i = true) :
    ∃ b : Bool, matchRun b ((coreStr s).drop i) = true ∧ (b = false → i = 0) := by
  rw [matchesAt, Bool.or_eq_true, Bool.and_eq_true] at h
  rcases h with ⟨hi, hm⟩ | hm
  · exact ⟨false, hm, fun _ => of_decide_eq_true hi⟩
  · exact ⟨true, hm, by simp⟩

theorem matchesAt_intro {s : List Char} {i : Nat} {b : Bool}
    (hm : matchRun b ((coreStr s).drop i) = true) (hb : b = false → i = 0) :
    matchesAt s i = true := by
  rw [matchesAt, Bool.or_eq_true, Bool.and_eq_true]
  cases b with
  | false => exact Or.inl ⟨decide_eq_true (hb rfl), hm⟩
  | true => exact Or.inr hm

theorem matchesAt_nil (j : Nat) : matchesAt [] j = false := by
  rw [matchesAt]
  have hc : coreStr [] = [] := rfl
  rw [hc]
  simp [matchRun_nil]

theorem coreStr_take {p : List Char} {i : Nat} (hilt : i < (coreStr p).length) :
    (coreStr p).take i = p.take i := by
  by_cases hcond : p.getLast? = some '\n'
  · rw [coreStr, if_pos hcond] at hilt ⊢
    rw [List.length_dropLast] at hilt
    rw [List.dropLast_eq_take, List.take_take, Nat.min_eq_left (by omega)]
  · rw [coreStr, if_neg hcond]

theorem eraseWS_append (a b : List Char) :
    eraseWS (a ++ b) = eraseWS a ++ eraseWS b := by
  rw [eraseWS, eraseWS, eraseWS, List.filter_append]

theorem eraseWS_eq_nil_of_spc {W : List Char}
    (hW : ∀ c ∈ W, isSpc c = true) : eraseWS W = [] := by
  rw [eraseWS, List.filter_eq_nil_iff]
  intro c hc
  simp [hW c hc]

theorem eraseWS_rstripL (s : List Char) : eraseWS (rstripL s) = eraseWS s := by
  conv_rhs => rw [← rstripL_spec s]
  rw [eraseWS_append,
    eraseWS_eq_nil_of_spc (fun c hc => mem_rstrip_tail_isSpc hc),
    List.append_nil]

theorem eraseWS_coreStr (s : List Char) : eraseWS (coreStr s) = eraseWS s := by
  obtain ⟨W, hW, hWspc⟩ := coreStr_spec s
  conv_rhs => rw [hW]
  rw [eraseWS_append, eraseWS_eq_nil_of_spc hWspc, List.append_nil]

/-- No residual match inside the clean prompt: if the search matched `p`
at `i`, no position of `rstripL (p.take i)` matches (otherwise the same
position would have matched in `p`, beating the leftmost match). -/
theorem matchesAt_rstripL_take {p : List Char} {i j : Nat}
    (hfm : findMatchStart p = some i)
    (hmj : matchesAt (rstripL (p.take i)) j = true) : False := by
  obtain ⟨hmi, hmin⟩ := findMatchStart_some hfm
  set c := rstripL (p.take i) with hcdef
  set R := (coreStr p).drop i with hRdef
  obtain ⟨b, hb, hb0⟩ := matchesAt_elim hmi
  rw [← hRdef] at hb
  have hRne : R ≠ [] := matchRun_ne_nil hb
  have hilt : i < (coreStr p).length := by
    by_contra hcon
    exact hRne (by rw [hRdef]; exact List.drop_eq_nil_of_le (by omega))
  by_cases hi0 : i = 0
  · subst hi0
    have hcnil : c = [] := by rw [hcdef, List.take_zero]; rfl
    rw [hcnil, matchesAt_nil] at hmj
    cases hmj
  · have hbt : matchRun true R = true := by
      cases b with
      | false => exact absurd (hb0 rfl) hi0
      | true => exact hb
    have hsplit : coreStr p = p.take i ++ R := by
      conv_lhs => rw [← List.take_append_drop i (coreStr p)]
      rw [coreStr_take hilt, hRdef]
    have htake_c : p.take i = c ++ ((p.take i).reverse.takeWhile isSpc).reverse := by
      rw [hcdef]
      exact (rstripL_spec _).symm
    set W1 := ((p.take i).reverse.takeWhile isSpc).reverse with hW1def
    have hW1spc : ∀ d ∈ W1, isSpc d = true := fun d hd => mem_rstrip_tail_isSpc hd
    obtain ⟨b', hb', hb'0⟩ := matchesAt_elim hmj
    rw [coreStr_rstripL, ← hcdef] at hb'
    have hcjne : c.drop j ≠ [] := matchRun_ne_nil hb'
    have hjlt : j < c.length := by
      by_contra hcon
      exact hcjne (List.drop_eq_nil_of_le (by omega))
    have hclei : c.length ≤ i := by
      have h1 : c.length + W1.length = (p.take i).length := by
        rw [htake_c, List.length_append]
      have h2 : (p.take i).length ≤ i := by
        rw [List.length_take]
        omega
      omega
    have hWR : matchRun true (W1 ++ R) = true :=
      matchRun_true_ws_append hW1spc hbt
    have hdropj : (coreStr p).drop j = c.drop j ++ (W1 ++ R) := by
      rw [hsplit, htake_c, List.append_assoc,
        List.drop_append_of_le_length (by omega)]
    have hmatch_pj : matchesAt p j = true := by
      refine matchesAt_intro (b := b') ?_ hb'0
      rw [hdropj]
      exact matchRun_append hWR (c.drop j).length b' _ (Nat.le_refl _) hb'
    have := hmin j (by omega)
    rw [hmatch_pj] at this
    cases this

/-- Re-running the extractor on its own clean prompt extracts nothing. -/
theorem parse_flags_idem (p : List Char) :
    parse_flags (parse_flags p).1 = ((parse_flags p).1, []) := by
  rcases hfm : findMatchStart p with - | i
  · simp only [parse_flags, hfm]
  · have h1 : (parse_flags p).1 = rstripL (p.take i) := by
      simp only [parse_flags, hfm]
    rw [h1]
    have hnone : findMatchStart (rstripL (p.take i)) = none := by
      apply findMatchStart_none
      intro j hj
      by_contra hcon
      exact matchesAt_rstripL_take hfm (by simpa using hcon)
    simp only [parse_flags, hnone]

/-- On a match at `i`, the clean prompt plus the matched region rebuilds
the prompt modulo whitespace, and the extracted flags are exactly the
word runs of the matched region, in order. -/
theorem parse_flags_reconstruct {p : List Char} {i : Nat}
    (h : findMatchStart p = some i) :
    eraseWS ((parse_flags p).1 ++ (coreStr p).drop i) = eraseWS p ∧
    (parse_flags p).2 = wordRuns ((coreStr p).drop i) := by
  obtain ⟨hmi, -⟩ := findMatchStart_some h
  obtain ⟨b, hb, -⟩ := matchesAt_elim hmi
  have hRne : (coreStr p).drop i ≠ [] := matchRun_ne_nil hb
  have hilt : i < (coreStr p).length := by
    by_contra hcon
    exact hRne (List.drop_eq_nil_of_le (by omega))
  constructor
  · have h1 : (parse_flags p).1 = rstripL (p.take i) := by
      simp only [parse_flags, h]
    rw [h1, eraseWS_append, eraseWS_rstripL, ← eraseWS_append]
    rw [← coreStr_take hilt, List.take_append_drop, eraseWS_coreStr]
  · have h2 : (parse_flags p).2 = findFlags ((coreStr p).drop i) := by
      simp only [parse_flags, h]
    rw [h2]
    exact findFlags_eq_wordRuns_of_matchRun _ b _ (Nat.le_refl _) hb

/-- With no match anywhere, the prompt is returned unchanged and no flag
is extracted. -/
theorem parse_flags_nomatch {p : List Char}
    (h : ∀ j, j ≤ p.length → matchesAt p j = false) :
    parse_flags p = (p, []) := by
  simp only [parse_flags, findMatchStart_none h]

/-! ### `should_apply_defaults` and its four skip patterns -/

/-- Alternatives of the first skip pattern,
`^(ls|dir|pwd|cd|cat|grep|find|which|what|where|who|when|how much|how many)\b`. -/
def shellWords : List (List Char) :=
  [ "ls".toList, "dir".toList, "pwd".toList, "cd".toList, "cat".toList,
    "grep".toList, "find".toList, "which".toList, "what".toList,
    "where".toList, "who".toList, "when".toList, "how much".toList,
    "how many".toList ]

/-- `\b` right after an alternative `w` matched at the start of `pl`: the next
character (if any) is not a word character.  Every alternative ends in a word
character, so this is the whole boundary condition. -/
def wordBoundAfter (pl w : List Char) : Bool :=
  match pl.drop w.length with
  | [] => true
  | c :: _ => !(isWChr c)

def skipShellPat (pl : List Char) : Bool :=
  shellWords.any (fun w => w.isPrefixOf pl && wordBoundAfter pl w)

/-- Alternatives of `^(show|list|display|get|fetch)\s+(me\s+)?(the\s+)?`. -/
def retrievalVerbs : List (List Char) :=
  [ "show".toList, "list".toList, "display".toList, "get".toList,
    "fetch".toList ]

/-- The second skip pattern matches exactly when a retrieval verb at the start
is followed by at least one whitespace character (the trailing groups are
optional). -/
def skipRetrievalPat (pl : List Char) : Bool :=
  retrievalVerbs.any (fun w =>
    w.isPrefixOf pl &&
      (match pl.drop w.length with
       | c :: _ => isSpc c
       | [] => false))

/-- The third skip pattern `^\?`. -/
def skipQMarkPat (pl : List Char) : Bool :=
  match pl with
  | '?' :: _ => true
  | _ => false

/-- Alternatives of `^(hi|hello|hey|thanks|thank you|bye)` (no `\b`). -/
def greetWords : List (List Char) :=
  [ "hi".toList, "hello".toList, "hey".toList, "thanks".toList,
    "thank you".toList, "bye".toList ]

def skipGreetPat (pl : List Char) : Bool :=
  greetWords.any (fun w => w.isPrefixOf pl)

/-- The `skip_patterns` list, in source order. -/
def skip_patterns : List (List Char → Bool) :=
  [skipShellPat, skipRetrievalPat, skipQMarkPat, skipGreetPat]

/-- The source's `should_apply_defaults`: lower-case the prompt, return
`false` on the first matching skip pattern, else `true`.  The `flags`
parameter is accepted and ignored, as in the source. -/
def should_apply_defaults (prompt : List Char) (flags : List (List Char)) : Bool :=
  let pl := lowerL prompt
  !(skip_patterns.any (fun m => m pl))

/-! ### Flag handlers (`EnhancedFlagHandlers`) -/

def ANTI_WRAPPER_RULE : List Char :=
  "\n\nCRITICAL DEVELOPMENT RULE:\nDon't write or generate any wrapper or replacement code for existing third-party packages.\n\nUse the official API of the specified package directly, as documented.\n\nA successful solution must:\n• Solve only the exact problem specified\n• Use the provided third-party package without modification or abstraction\n• Require minimal integration effort with the existing system\n• Preserve existing architecture and patterns\n• Include concise explanations of the API calls used and why\n\nDon't write or change any code until you're at least 95% confident in what needs to be done. If anything is unclear, ask for more information.\n".toList

def base_standards : List Char :=
  "\nFollow the project's principal engineering standards. No shortcuts, stubs, or hardcoded values. We build it right the first time: clean, robust, and production ready. No halfway measures.\n\nKeep it tight. Use the simplest solution that meets the need with high quality. Do not overengineer. Do not create new files, layers, or abstractions unless they are clearly necessary. Every line of code should earn its place. Simplicity is earned through understanding, not guesswork.\n\nMake it clean. Make it count.\n\nIf you encounter uncertainty, lack context, or are not confident in the solution, stop. Do not guess or make things up. It is not only okay, it is expected, to ask for clarification or help. Excellence includes knowing when to pause.\n".toList

/-- `EnhancedFlagHandlers.engineering_standards()`. -/
def engineering_standards : List Char :=
  base_standards ++ ANTI_WRAPPER_RULE

/-- `EnhancedFlagHandlers.no_guess()`. -/
def no_guess : List Char :=
  "\n\nDo not guess or make assumptions. If something is unclear or you lack necessary context, stop and ask for clarification. It's better to ask than to implement incorrectly.".toList
    ++ ANTI_WRAPPER_RULE

/-- The ambient filesystem facts the `bmad` handler probes: existence of the
`bmad-core` directory, of `bmad-core/data/technical-preferences.md`, the
`docs/stories` directory (`none` = absent, `some n` = present with `n`
matching `*.md` stories), `docs/architecture`, and `docs/prd.md`. -/
structure BmadFS where
  bmadCore : Bool
  techPrefs : Bool
  stories : Option Nat
  archDocs : Bool
  prd : Bool

/-- `EnhancedFlagHandlers.bmad()`: string built up by `+=` in source order. -/
def bmad (fs : BmadFS) : List Char :=
  if fs.bmadCore then
    "\n\n[BMad Method Active]".toList
      ++ (if fs.techPrefs then
            "\nReference technical preferences from bmad-core/data/technical-preferences.md".toList
          else [])
      ++ (match fs.stories with
          | some n =>
            if 0 < n then
              "\nActive stories available in docs/stories/ (".toList
                ++ (Nat.repr n).toList ++ " stories)".toList
            else []
          | none => [])
      ++ (if fs.archDocs then
            "\nArchitecture documentation available in docs/architecture/".toList
          else [])
      ++ (if fs.prd then "\nPRD available in docs/prd.md".toList else [])
      ++ "\nApply BMad workflow patterns and engineering standards.".toList
  else
    "\n\n[BMad Method Not Detected - Install with: npx bmad-method install]".toList

/-- `EnhancedFlagHandlers.bmad_story()`. -/
def bmad_story : List Char :=
  "\n\nBMad Story Mode: Reference story file for context and acceptance criteria. Implement with tests and update story with implementation notes. Use engineering standards and verify against existing codebase patterns.".toList

/-- `EnhancedFlagHandlers.bmad_review()`. -/
def bmad_review : List Char :=
  "\n\nBMad Review Mode: Apply BMad QA checklist. Review against acceptance criteria, check architectural alignment, suggest improvements. Use systematic review approach.".toList

/-- `EnhancedFlagHandlers.help()`. -/
def help_text : List Char :=
  "\nThe user has just asked for help understanding the UserPromptSubmit hooks. Please display the following help message:\nHere are all available UserPromptSubmit hook flags:\n\n🧠 THINKING MODES\n- -u, -ultrathink    Maximum thinking budget (31,999 tokens) for complex problems\n- -th, -think_hard   Enhanced thinking for challenging tasks\n- -t, -think         Step-by-step thinking for standard problems\n\n🏗️ QUALITY & STANDARDS\n- -e, -eng, -standards    Apply engineering standards (no shortcuts, production-ready)\n- -clean                  Follow clean code principles (SOLID, DRY, meaningful names)\n\n💻 DEVELOPMENT MODES\n- -p, -plan          Create detailed plan before implementation\n- -v, -verbose       Include verbose explanations and detailed comments\n- -s, -sec, -security    Focus on security best practices\n- -test              Include comprehensive unit tests\n- -doc               Provide detailed documentation with examples\n- -perf              Optimize for performance with benchmarks\n- -review            Critical code review mode\n- -refactor          Refactor for clarity and maintainability\n- -debug             Systematic debugging approach\n- -api               API design best practices\n\n🔧 OTHER OPTIONS\n- -ng, -no_guess     Never guess; ask for clarification instead\n- -ctx, -context     Include project context (package managers, tools)\n- -hh, -hhelp        Show this help message\n\n🎯 BMAD METHOD FLAGS (Enhanced Version)\n- -bmad              BMad Method context and patterns\n- -bmad-story        BMad story implementation mode\n- -bmad-review       BMad review and QA mode\n\n💡 COMMON COMBINATIONS\nComplex problem:     -u -p        (ultrathink + plan)\nProduction feature:  -e -test -doc (standards + tests + docs)\nCode review:        -review -u    (review + deep thinking)\nBMad workflow:      -bmad -u -p   (BMad context + ultrathink + plan)\nBMad story impl:    -bmad-story -e -test (BMad story + standards + tests)\n\nNote: Engineering standards include anti-wrapper rule enforcement. BMad flags only available in enhanced version.".toList

/-- The handlers of the enhanced mapping.  In the modeled (fallback)
configuration `USE_BASE_HANDLERS` is false, so base flags have no handler. -/
inductive HandlerId where
  | std | noGuess | bmadH | bmadStoryH | bmadReviewH | helpH
deriving DecidableEq

/-- `get_enhanced_flag_handler`: look the lowercased token up in the
enhanced mapping; with the base module unavailable everything else
resolves to `none`. -/
def get_enhanced_flag_handler (flag : List Char) : Option HandlerId :=
  let f := lowerL flag
  if f = "e".toList then some .std
  else if f = "eng".toList then some .std
  else if f = "standards".toList then some .std
  else if f = "no_guess".toList then some .noGuess
  else if f = "ng".toList then some .noGuess
  else if f = "bmad".toList then some .bmadH
  else if f = "bmad_story".toList then some .bmadStoryH
  else if f = "bmad_review".toList then some .bmadReviewH
  else if f = "hh".toList then some .helpH
  else if f = "hhelp".toList then some .helpH
  else none

/-- Invoke a handler (zero-argument in the source; `bmad` reads the
filesystem facts). -/
def runHandler (fs : BmadFS) : HandlerId → List Char
  | .std => engineering_standards
  | .noGuess => no_guess
  | .bmadH => bmad fs
  | .bmadStoryH => bmad_story
  | .bmadReviewH => bmad_review
  | .helpH => help_text

/-! ### `PromptEnhancer` and the event record -/

/-- Values the event record stores. -/
inductive LogValue where
  | s (v : List Char)
  | b (v : Bool)
  | l (v : List (List Char))
deriving DecidableEq

/-- Python dict assignment: update the value in place if the key exists
(insertion order kept), else append the new pair. -/
def dictSet (d : List (String × LogValue)) (k : String) (v : LogValue) :
    List (String × LogValue) :=
  if d.any (fun p => p.1 = k) then
    d.map (fun p => if p.1 = k then (k, v) else p)
  else d ++ [(k, v)]

def hasKey (d : List (String × LogValue)) (k : String) : Bool :=
  d.any (fun p => p.1 = k)

def getKey (d : List (String × LogValue)) (k : String) : Option LogValue :=
  (d.find? (fun p => p.1 = k)).map (fun p => p.2)

/-- The `PromptEnhancer` state.  `contexts` and `log` are the source's
fields; `rawCalls` is a ghost trace of the arguments passed to
`add_context`, used to state what the accumulator does to them. -/
structure Enhancer where
  contexts : List (List Char)
  rawCalls : List (List Char)
  log : List (String × LogValue)

/-- `PromptEnhancer.add_context`: append `context.strip()` when `context`
is nonempty and strips to nonempty. -/
def addContext (e : Enhancer) (c : List Char) : Enhancer :=
  { e with
    rawCalls := e.rawCalls ++ [c]
    contexts :=
      if c.isEmpty then e.contexts
      else if (stripL c).isEmpty then e.contexts
      else e.contexts ++ [stripL c] }

/-- `PromptEnhancer.log_event`. -/
def logEvent (e : Enhancer) (k : String) (v : LogValue) : Enhancer :=
  { e with log := dictSet e.log k v }

/-! ### Orchestrator (`main`) -/

/-- The parsed stdin object: recognized fields with their presence. -/
structure InputData where
  prompt : Option (List Char)
  session_id : Option (List Char)

/-- Ambient facts the run consumes: the two formatted timestamps, the git
branch probe (`none` = the probe failed; `some b` = it succeeded with
already-stripped output `b`, possibly empty), and the filesystem facts. -/
structure Ambient where
  dateStr : List Char
  timestamp : List Char
  formattedDate : List Char
  branch : Option (List Char)
  fs : BmadFS

/-- Result of one run: exit code, primary output (the printed combined
context, if any), the diagnostic line (on failure), whether the log write
was attempted, and the final state of the interesting locals. -/
structure RunResult where
  exitCode : Nat
  stdout : Option (List Char)
  stderr : Option (List Char)
  logAttempted : Bool
  enhancer : Enhancer
  cleanPrompt : List Char
  flags : List (List Char)
  applied : List (List Char)

def helpPhrase : List Char := "Show available hook flags".toList

def dateFragRaw (d : List Char) : List Char :=
  "\n[Current Date: ".toList ++ d ++ "]".toList

def branchFragRaw (b : List Char) : List Char :=
  "\n[Git Branch: ".toList ++ b ++ "]".toList

/-- Python `"\n".join`. -/
def joinNL : List (List Char) → List Char
  | [] => []
  | [x] => x
  | x :: y :: ys => x ++ '\n' :: joinNL (y :: ys)

/-- One step of the explicit-flag loop: resolve the flag; if resolved,
add the handler's fragment and record the flag as applied. -/
def flagStep (fs : BmadFS) (st : Enhancer × List (List Char))
    (flag : List Char) : Enhancer × List (List Char) :=
  match get_enhanced_flag_handler flag with
  | some h => (addContext st.1 (runHandler fs h), st.2 ++ [flag])
  | none => st

/-- The source's `main`, from the point where stdin has been read (the
`Except` input models the `json.load`: `.error` is an unparseable stdin,
caught by the outermost handler).  All steps follow the source order. -/
def mainRun (input : Except (List Char) InputData) (amb : Ambient) : RunResult :=
  match input with
  | .error e =>
    { exitCode := 1
      stdout := none
      stderr := some ("[Enhanced Hook Error: ".toList ++ e ++ "]".toList)
      logAttempted := false
      enhancer := { contexts := [], rawCalls := [], log := [] }
      cleanPrompt := []
      flags := []
      applied := [] }
  | .ok inp =>
    let prompt := inp.prompt.getD []
    let sid := inp.session_id.getD "unknown".toList
    let e0 : Enhancer :=
      { contexts := []
        rawCalls := []
        log := [("timestamp", .s amb.timestamp),
                ("formatted_date", .s amb.formattedDate)] }
    let e1 := logEvent e0 "original_prompt" (.s prompt)
    let e2 := logEvent e1 "session_id" (.s sid)
    let e3 := logEvent e2 "hook_version" (.s "enhanced".toList)
    let pf := parse_flags prompt
    let flags := pf.2
    let e4 := logEvent e3 "flags" (.l flags)
    let e5 := logEvent e4 "clean_prompt" (.s pf.1)
    let helpCond := (stripL pf.1).isEmpty
      && (flags.contains "hh".toList || flags.contains "hhelp".toList)
    let clean := if helpCond then helpPhrase else pf.1
    let e6 := if helpCond then logEvent e5 "help_request" (.b true) else e5
    let e7 := addContext e6 (dateFragRaw amb.dateStr)
    let e8 :=
      match amb.branch with
      | some b => if b.isEmpty then e7 else addContext e7 (branchFragRaw b)
      | none => e7
    let autoCond :=
      (!(flags.contains "hh".toList) && !(flags.contains "hhelp".toList))
        && (should_apply_defaults clean flags
            && !(flags.contains "e".toList) && !(flags.contains "eng".toList))
    let e9 :=
      if autoCond then
        logEvent (addContext e8 engineering_standards)
          "auto_applied_enhanced_standards" (.b true)
      else e8
    let st := flags.foldl (flagStep amb.fs) (e9, [])
    let e11 := logEvent st.1 "applied_flags" (.l st.2)
    let emitted :=
      if e11.contexts.isEmpty then none else some (joinNL e11.contexts)
    let e12 :=
      match emitted with
      | some out => logEvent e11 "injected_context" (.s out)
      | none => e11
    { exitCode := 0
      stdout := emitted
      stderr := none
      logAttempted := true
      enhancer := e12
      cleanPrompt := clean
      flags := flags
      applied := st.2 }

/-! ### What `add_context` stores -/

/-- The fragment `add_context` appends for a call with argument `c`,
if any. -/
def stripAdd (c : List Char) : Option (List Char) :=
  if c.isEmpty then none
  else if (stripL c).isEmpty then none
  else some (stripL c)

theorem addContext_contexts (e : Enhancer) (c : List Char) :
    (addContext e c).contexts = e.contexts ++ (stripAdd c).toList := by
  rw [addContext, stripAdd]
  split_ifs <;> simp

theorem addContext_rawCalls (e : Enhancer) (c : List Char) :
    (addContext e c).rawCalls = e.rawCalls ++ [c] := rfl

theorem addContext_log (e : Enhancer) (c : List Char) :
    (addContext e c).log = e.log := rfl

theorem logEvent_contexts (e : Enhancer) (k : String) (v : LogValue) :
    (logEvent e k v).contexts = e.contexts := rfl

theorem logEvent_rawCalls (e : Enhancer) (k : String) (v : LogValue) :
    (logEvent e k v).rawCalls = e.rawCalls := rfl

/-! ### Strip computations on the ambient fragments -/

theorem rstripL_cons_of_not_spc {a : Char} (ha : isSpc a = false)
    (l : List Char) : rstripL (a :: l) = a :: rstripL l := by
  rw [rstripL, rstripL, List.reverse_cons, List.dropWhile_append]
  by_cases h : (l.reverse.dropWhile isSpc).isEmpty
  · rw [if_pos h, List.isEmpty_iff.mp h]
    rw [List.dropWhile_cons_of_neg (by simp [ha])]
    simp
  · rw [if_neg h, List.reverse_append]
    simp

theorem rstripL_append_singleton {a : Char} (ha : isSpc a = false)
    (l : List Char) : rstripL (l ++ [a]) = l ++ [a] := by
  rw [rstripL, List.reverse_append]
  simp only [List.reverse_cons, List.reverse_nil, List.nil_append,
    List.singleton_append]
  rw [List.dropWhile_cons_of_neg (by simp [ha])]
  simp

theorem stripL_cons_of_spc {a : Char} (ha : isSpc a = true) (l : List Char) :
    stripL (a :: l) = stripL l := by
  rw [stripL, stripL, List.dropWhile_cons_of_pos ha]

theorem stripL_cons_of_not_spc {a : Char} (ha : isSpc a = false)
    (l : List Char) : stripL (a :: l) = a :: rstripL l := by
  rw [stripL, List.dropWhile_cons_of_neg (by simp [ha])]
  exact rstripL_cons_of_not_spc ha l

/-- The stored (stripped) date fragment. -/
def dateStored (d : List Char) : List Char :=
  "[Current Date: ".toList ++ d ++ [']']

/-- The stored (stripped) branch fragment. -/
def branchStored (b : List Char) : List Char :=
  "[Git Branch: ".toList ++ b ++ [']']

theorem stripL_dateFrag (d : List Char) :
    stripL (dateFragRaw d) = dateStored d := by
  have h : dateFragRaw d =
      '\n' :: '[' :: ("Current Date: ".toList ++ (d ++ [']'])) := rfl
  rw [h, stripL_cons_of_spc (by decide), stripL_cons_of_not_spc (by decide)]
  rw [show "Current Date: ".toList ++ (d ++ [']']) =
      ("Current Date: ".toList ++ d) ++ [']'] from (List.append_assoc _ _ _).symm]
  rw [rstripL_append_singleton (by decide)]
  rw [dateStored]
  rw [show ("[Current Date: ".toList ++ d ++ [']'] : List Char) =
    '[' :: (("Current Date: ".toList ++ d) ++ [']']) from rfl]

theorem stripL_branchFrag (b : List Char) :
    stripL (branchFragRaw b) = branchStored b := by
  have h : branchFragRaw b =
      '\n' :: '[' :: ("Git Branch: ".toList ++ (b ++ [']'])) := rfl
  rw [h, stripL_cons_of_spc (by decide), stripL_cons_of_not_spc (by decide)]
  rw [show "Git Branch: ".toList ++ (b ++ [']']) =
      ("Git Branch: ".toList ++ b) ++ [']'] from (List.append_assoc _ _ _).symm]
  rw [rstripL_append_singleton (by decide)]
  rw [branchStored]
  rw [show ("[Git Branch: ".toList ++ b ++ [']'] : List Char) =
    '[' :: (("Git Branch: ".toList ++ b) ++ [']']) from rfl]

theorem stripAdd_dateFrag (d : List Char) :
    stripAdd (dateFragRaw d) = some (dateStored d) := by
  rw [stripAdd, stripL_dateFrag]
  rw [if_neg (by rw [show dateFragRaw d =
      '\n' :: '[' :: ("Current Date: ".toList ++ (d ++ [']'])) from rfl]; simp)]
  rw [if_neg (by rw [show dateStored d =
      '[' :: (("Current Date: ".toList ++ d) ++ [']']) from rfl]; simp)]

theorem stripAdd_branchFrag (b : List Char) :
    stripAdd (branchFragRaw b) = some (branchStored b) := by
  rw [stripAdd, stripL_branchFrag]
  rw [if_neg (by rw [show branchFragRaw b =
      '\n' :: '[' :: ("Git Branch: ".toList ++ (b ++ [']'])) from rfl]; simp)]
  rw [if_neg (by rw [show branchStored b =
      '[' :: (("Git Branch: ".toList ++ b) ++ [']']) from rfl]; simp)]

/-! ### The bmad fragment always starts with a bracket -/

theorem bmad_shape (fs : BmadFS) :
    ∃ t : List Char, bmad fs = '\n' :: '\n' :: '[' :: t := by
  rw [bmad]
  by_cases h : fs.bmadCore
  · rw [if_pos h]
    exact ⟨_, rfl⟩
  · rw [if_neg h]
    exact ⟨_, rfl⟩

theorem stripL_bmad_shape (fs : BmadFS) :
    ∃ t : List Char, stripL (bmad fs) = '[' :: t := by
  obtain ⟨t, ht⟩ := bmad_shape fs
  rw [ht, stripL_cons_of_spc (by decide), stripL_cons_of_spc (by decide),
    stripL_cons_of_not_spc (by decide)]
  exact ⟨_, rfl⟩

theorem stripAdd_bmad (fs : BmadFS) :
    stripAdd (bmad fs) = some (stripL (bmad fs)) := by
  obtain ⟨t, ht⟩ := bmad_shape fs
  obtain ⟨t2, ht2⟩ := stripL_bmad_shape fs
  rw [stripAdd, if_neg (by rw [ht]; simp), if_neg (by rw [ht2]; simp)]

/-! ### The standards fragment among the handler fragments -/

/-- The stored (stripped) engineering-standards fragment, as both the
baseline auto-injection and the explicit-flag handler store it. -/
def stdStored : List Char := stripL engineering_standards

theorem ne_of_head? {l₁ l₂ : List Char} (h : l₁.head? ≠ l₂.head?) : l₁ ≠ l₂ :=
  fun he => h (he ▸ rfl)

theorem engineering_standards_shape :
    ∃ t, engineering_standards = '\n' :: 'F' :: t := ⟨_, rfl⟩

theorem no_guess_shape : ∃ t, no_guess = '\n' :: '\n' :: 'D' :: t := ⟨_, rfl⟩

theorem bmad_story_shape : ∃ t, bmad_story = '\n' :: '\n' :: 'B' :: t := ⟨_, rfl⟩

theorem bmad_review_shape : ∃ t, bmad_review = '\n' :: '\n' :: 'B' :: t := ⟨_, rfl⟩

theorem help_text_shape : ∃ t, help_text = '\n' :: 'T' :: t := ⟨_, rfl⟩

theorem stdStored_shape : ∃ t, stdStored = 'F' :: t := by
  obtain ⟨t, ht⟩ := engineering_standards_shape
  refine ⟨rstripL t, ?_⟩
  rw [stdStored, ht, stripL_cons_of_spc (by decide),
    stripL_cons_of_not_spc (by decide)]

theorem stdStored_head : stdStored.head? = some 'F' := by
  obtain ⟨t, ht⟩ := stdStored_shape
  rw [ht]
  rfl

theorem stripAdd_std : stripAdd engineering_standards = some stdStored := by
  obtain ⟨t, ht⟩ := engineering_standards_shape
  obtain ⟨t2, ht2⟩ := stdStored_shape
  rw [stripAdd, if_neg (by rw [ht]; simp),
    if_neg (by rw [show stripL engineering_standards = stdStored from rfl, ht2]; simp)]
  rfl

theorem runHandler_ne_std {fs : BmadFS} {h : HandlerId}
    (hne : h ≠ HandlerId.std) : stripL (runHandler fs h) ≠ stdStored := by
  cases h with
  | std => exact absurd rfl hne
  | noGuess =>
    obtain ⟨t, ht⟩ := no_guess_shape
    refine ne_of_head? ?_
    rw [show runHandler fs HandlerId.noGuess = no_guess from rfl, ht,
      stripL_cons_of_spc (by decide), stripL_cons_of_spc (by decide),
      stripL_cons_of_not_spc (by decide), stdStored_head]
    simp
  | bmadH =>
    obtain ⟨t, ht⟩ := stripL_bmad_shape fs
    refine ne_of_head? ?_
    rw [show runHandler fs HandlerId.bmadH = bmad fs from rfl, ht, stdStored_head]
    simp
  | bmadStoryH =>
    obtain ⟨t, ht⟩ := bmad_story_shape
    refine ne_of_head? ?_
    rw [show runHandler fs HandlerId.bmadStoryH = bmad_story from rfl, ht,
      stripL_cons_of_spc (by decide), stripL_cons_of_spc (by decide),
      stripL_cons_of_not_spc (by decide), stdStored_head]
    simp
  | bmadReviewH =>
    obtain ⟨t, ht⟩ := bmad_review_shape
    refine ne_of_head? ?_
    rw [show runHandler fs HandlerId.bmadReviewH = bmad_review from rfl, ht,
      stripL_cons_of_spc (by decide), stripL_cons_of_spc (by decide),
      stripL_cons_of_not_spc (by decide), stdStored_head]
    simp
  | helpH =>
    obtain ⟨t, ht⟩ := help_text_shape
    refine ne_of_head? ?_
    rw [show runHandler fs HandlerId.helpH = help_text from rfl, ht,
      stripL_cons_of_spc (by decide),
      stripL_cons_of_not_spc (by decide), stdStored_head]
    simp

theorem stripAdd_ne_std {fs : BmadFS} {h : HandlerId}
    (hne : h ≠ HandlerId.std) {c : List Char}
    (hc : stripAdd (runHandler fs h) = some c) : c ≠ stdStored := by
  have hceq : c = stripL (runHandler fs h) := by
    rw [stripAdd] at hc
    split_ifs at hc
    exact (Option.some_injective _ hc).symm
  rw [hceq]
  exact runHandler_ne_std hne

/-- An engineering-standards alias token: lowercases to `e`, `eng` or
`standards`. -/
def isStdAlias (f : List Char) : Bool :=
  lowerL f = "e".toList || lowerL f = "eng".toList ||
    lowerL f = "standards".toList

theorem lookup_std_iff (f : List Char) :
    get_enhanced_flag_handler f = some HandlerId.std ↔ isStdAlias f = true := by
  rw [get_enhanced_flag_handler, isStdAlias]
  simp only [Bool.or_eq_true, decide_eq_true_eq]
  by_cases h1 : lowerL f = "e".toList
  · rw [if_pos h1]
    simp [h1]
  · rw [if_neg h1]
    by_cases h2 : lowerL f = "eng".toList
    · rw [if_pos h2]
      simp [h2]
    · rw [if_neg h2]
      by_cases h3 : lowerL f = "standards".toList
      · rw [if_pos h3]
        simp [h3]
      · rw [if_neg h3]
        constructor
        · intro hcon
          split_ifs at hcon <;> simp_all
        · intro hcon
          tauto

/-! ### The explicit-flag loop -/

/-- The raw fragments the loop passes to `add_context`, in order. -/
def rawOf (fs : BmadFS) (flags : List (List Char)) : List (List Char) :=
  flags.filterMap (fun f => (get_enhanced_flag_handler f).map (runHandler fs))

/-- The stored fragments the loop appends, in order. -/
def collectFrags (fs : BmadFS) (flags : List (List Char)) : List (List Char) :=
  flags.filterMap
    (fun f => (get_enhanced_flag_handler f).bind (fun h => stripAdd (runHandler fs h)))

/-- The flags recorded as applied: those that resolve to a handler. -/
def appliedOf (flags : List (List Char)) : List (List Char) :=
  flags.filter (fun f => (get_enhanced_flag_handler f).isSome)

theorem collectFrags_cons_none {f : List Char} (fs : BmadFS)
    (rest : List (List Char)) (hl : get_enhanced_flag_handler f = none) :
    collectFrags fs (f :: rest) = collectFrags fs rest := by
  rw [collectFrags, List.filterMap_cons, hl]
  rfl

theorem collectFrags_cons_some {f : List Char} {h : HandlerId} (fs : BmadFS)
    (rest : List (List Char)) (hl : get_enhanced_flag_handler f = some h) :
    collectFrags fs (f :: rest) =
      (stripAdd (runHandler fs h)).toList ++ collectFrags fs rest := by
  rw [collectFrags, List.filterMap_cons, hl,
    show ((some h).bind fun h => stripAdd (runHandler fs h)) =
      stripAdd (runHandler fs h) from rfl]
  cases hs : stripAdd (runHandler fs h) with
  | none => rfl
  | some c => rfl

theorem rawOf_cons_none {f : List Char} (fs : BmadFS)
    (rest : List (List Char)) (hl : get_enhanced_flag_handler f = none) :
    rawOf fs (f :: rest) = rawOf fs rest := by
  rw [rawOf, List.filterMap_cons, hl]
  rfl

theorem rawOf_cons_some {f : List Char} {h : HandlerId} (fs : BmadFS)
    (rest : List (List Char)) (hl : get_enhanced_flag_handler f = some h) :
    rawOf fs (f :: rest) = runHandler fs h :: rawOf fs rest := by
  rw [rawOf, List.filterMap_cons, hl]
  rfl

theorem appliedOf_cons_none {f : List Char}
    (rest : List (List Char)) (hl : get_enhanced_flag_handler f = none) :
    appliedOf (f :: rest) = appliedOf rest := by
  rw [appliedOf, List.filter_cons, hl]
  rfl

theorem appliedOf_cons_some {f : List Char} {h : HandlerId}
    (rest : List (List Char)) (hl : get_enhanced_flag_handler f = some h) :
    appliedOf (f :: rest) = f :: appliedOf rest := by
  rw [appliedOf, List.filter_cons, hl]
  rfl

theorem foldl_flagStep (fs : BmadFS) :
    ∀ (flags : List (List Char)) (e : Enhancer) (app : List (List Char)),
      (flags.foldl (flagStep fs) (e, app)).1.contexts
          = e.contexts ++ collectFrags fs flags
      ∧ (flags.foldl (flagStep fs) (e, app)).1.rawCalls
          = e.rawCalls ++ rawOf fs flags
      ∧ (flags.foldl (flagStep fs) (e, app)).1.log = e.log
      ∧ (flags.foldl (flagStep fs) (e, app)).2 = app ++ appliedOf flags := by
  intro flags
  induction flags with
  | nil =>
    intro e app
    simp [collectFrags, rawOf, appliedOf]
  | cons f rest ih =>
    intro e app
    rw [List.foldl_cons]
    cases hl : get_enhanced_flag_handler f with
    | none =>
      have hstep : flagStep fs (e, app) f = (e, app) := by
        rw [flagStep, hl]
      rw [hstep]
      obtain ⟨ih1, ih2, ih3, ih4⟩ := ih e app
      rw [collectFrags_cons_none fs rest hl, rawOf_cons_none fs rest hl,
        appliedOf_cons_none rest hl]
      exact ⟨ih1, ih2, ih3, ih4⟩
    | some h =>
      have hstep : flagStep fs (e, app) f =
          (addContext e (runHandler fs h), app ++ [f]) := by
        rw [flagStep, hl]
      rw [hstep]
      obtain ⟨ih1, ih2, ih3, ih4⟩ :=
        ih (addContext e (runHandler fs h)) (app ++ [f])
      rw [collectFrags_cons_some fs rest hl, rawOf_cons_some fs rest hl,
        appliedOf_cons_some rest hl]
      refine ⟨?_, ?_, ?_, ?_⟩
      · rw [ih1, addContext_contexts, List.append_assoc]
      · rw [ih2, addContext_rawCalls, List.append_assoc]
        rfl
      · rw [ih3, addContext_log]
      · rw [ih4, List.append_assoc]
        rfl

theorem foldl_flagStep_contexts (fs : BmadFS) (flags : List (List Char))
    (e : Enhancer) (app : List (List Char)) :
    (flags.foldl (flagStep fs) (e, app)).1.contexts
      = e.contexts ++ collectFrags fs flags :=
  (foldl_flagStep fs flags e app).1

theorem foldl_flagStep_rawCalls (fs : BmadFS) (flags : List (List Char))
    (e : Enhancer) (app : List (List Char)) :
    (flags.foldl (flagStep fs) (e, app)).1.rawCalls
      = e.rawCalls ++ rawOf fs flags :=
  (foldl_flagStep fs flags e app).2.1

theorem foldl_flagStep_log (fs : BmadFS) (flags : List (List Char))
    (e : Enhancer) (app : List (List Char)) :
    (flags.foldl (flagStep fs) (e, app)).1.log = e.log :=
  (foldl_flagStep fs flags e app).2.2.1

theorem foldl_flagStep_applied (fs : BmadFS) (flags : List (List Char))
    (e : Enhancer) (app : List (List Char)) :
    (flags.foldl (flagStep fs) (e, app)).2 = app ++ appliedOf flags :=
  (foldl_flagStep fs flags e app).2.2.2

theorem contexts_ite (c : Prop) [Decidable c] (a b : Enhancer) :
    (if c then a else b).contexts = if c then a.contexts else b.contexts :=
  apply_ite Enhancer.contexts c a b

theorem rawCalls_ite (c : Prop) [Decidable c] (a b : Enhancer) :
    (if c then a else b).rawCalls = if c then a.rawCalls else b.rawCalls :=
  apply_ite Enhancer.rawCalls c a b

theorem log_ite (c : Prop) [Decidable c] (a b : Enhancer) :
    (if c then a else b).log = if c then a.log else b.log :=
  apply_ite Enhancer.log c a b

/-- Each standards alias in the flag sequence contributes exactly one
stored standards fragment; no other flag contributes one. -/
theorem count_std_collectFrags (fs : BmadFS) :
    ∀ flags : List (List Char),
      (collectFrags fs flags).count stdStored = flags.countP isStdAlias := by
  intro flags
  induction flags with
  | nil => rfl
  | cons f rest ih =>
    rw [List.countP_cons]
    cases hl : get_enhanced_flag_handler f with
    | none =>
      have halias : isStdAlias f = false := by
        by_contra hcon
        have h2 := (lookup_std_iff f).mpr (by simpa using hcon)
        rw [hl] at h2
        cases h2
      rw [collectFrags_cons_none fs rest hl, ih, halias]
      simp
    | some h =>
      by_cases hstd : h = HandlerId.std
      · subst hstd
        have halias : isStdAlias f = true := (lookup_std_iff f).mp hl
        rw [collectFrags_cons_some fs rest hl,
          show runHandler fs HandlerId.std = engineering_standards from rfl,
          stripAdd_std]
        rw [show (some stdStored).toList = [stdStored] from rfl,
          List.singleton_append, List.count_cons_self, ih, halias]
        simp
      · have halias : isStdAlias f = false := by
          by_contra hcon
          have h2 := (lookup_std_iff f).mpr (by simpa using hcon)
          rw [hl] at h2
          exact hstd (Option.some_injective _ h2)
        rw [collectFrags_cons_some fs rest hl]
        cases hs : stripAdd (runHandler fs h) with
        | none =>
          rw [show (none : Option (List Char)).toList = [] from rfl,
            List.nil_append, ih, halias]
          simp
        | some c =>
          have hcne : c ≠ stdStored := stripAdd_ne_std hstd hs
          rw [show (some c).toList = [c] from rfl, List.singleton_append,
            List.count_cons_of_ne (fun he => hcne he.symm), ih, halias]
          simp

/-! ### The shape of a successful run -/

def promptOf (inp : InputData) : List Char := inp.prompt.getD []

def flagsOf (inp : InputData) : List (List Char) :=
  (parse_flags (promptOf inp)).2

def cleanRaw (inp : InputData) : List Char := (parse_flags (promptOf inp)).1

/-- The help-override condition of step 3 of the orchestrator. -/
def helpCondOf (inp : InputData) : Bool :=
  (stripL (cleanRaw inp)).isEmpty &&
    ((flagsOf inp).contains "hh".toList || (flagsOf inp).contains "hhelp".toList)

/-- The clean prompt after the possible help override. -/
def cleanFinal (inp : InputData) : List Char :=
  if helpCondOf inp then helpPhrase else cleanRaw inp

/-- The baseline auto-injection condition of step 5 of the orchestrator. -/
def autoCondOf (inp : InputData) : Bool :=
  (!((flagsOf inp).contains "hh".toList) &&
      !((flagsOf inp).contains "hhelp".toList))
    && (should_apply_defaults (cleanFinal inp) (flagsOf inp)
        && !((flagsOf inp).contains "e".toList)
        && !((flagsOf inp).contains "eng".toList))

/-- Stored branch fragments (one or none). -/
def branchCtxs : Option (List Char) → List (List Char)
  | none => []
  | some b => if b.isEmpty then [] else [branchStored b]

/-- Raw branch fragments (one or none). -/
def branchRaws : Option (List Char) → List (List Char)
  | none => []
  | some b => if b.isEmpty then [] else [branchFragRaw b]

/-- The stored fragment list of a successful run, in order: date, branch,
baseline, then the explicit-flag fragments. -/
def ctxsOf (inp : InputData) (amb : Ambient) : List (List Char) :=
  dateStored amb.dateStr :: (branchCtxs amb.branch
    ++ (if autoCondOf inp then [stdStored] else [])
    ++ collectFrags amb.fs (flagsOf inp))

/-- The raw fragment list passed to `add_context`, in order. -/
def rawsOf (inp : InputData) (amb : Ambient) : List (List Char) :=
  dateFragRaw amb.dateStr :: (branchRaws amb.branch
    ++ (if autoCondOf inp then [engineering_standards] else [])
    ++ rawOf amb.fs (flagsOf inp))

/-- What the accumulator keeps of a raw call sequence: each fragment
that is nonempty and strips to nonempty, stripped, in order. -/
def goodStrips (l : List (List Char)) : List (List Char) :=
  l.filterMap stripAdd

theorem goodStrips_rawOf (fs : BmadFS) :
    ∀ flags : List (List Char),
      goodStrips (rawOf fs flags) = collectFrags fs flags := by
  intro flags
  induction flags with
  | nil => rfl
  | cons f rest ih =>
    cases hl : get_enhanced_flag_handler f with
    | none =>
      rw [rawOf_cons_none fs rest hl, collectFrags_cons_none fs rest hl, ih]
    | some h =>
      rw [rawOf_cons_some fs rest hl, collectFrags_cons_some fs rest hl,
        goodStrips, List.filterMap_cons]
      cases hs : stripAdd (runHandler fs h) with
      | none =>
        rw [show ((none : Option (List Char)).toList) = [] from rfl,
          List.nil_append, ← ih]
        rfl
      | some c =>
        rw [show ((some c).toList) = [c] from rfl, List.singleton_append, ← ih]
        rfl

theorem goodStrips_append (a b : List (List Char)) :
    goodStrips (a ++ b) = goodStrips a ++ goodStrips b := by
  rw [goodStrips, goodStrips, goodStrips, List.filterMap_append]

theorem goodStrips_cons (c : List Char) (l : List (List Char)) :
    goodStrips (c :: l) = (stripAdd c).toList ++ goodStrips l := by
  rw [goodStrips, List.filterMap_cons]
  cases h : stripAdd c <;> rfl

/-- The stored fragments are exactly the kept strips of the raw
`add_context` arguments, in call order. -/
theorem ctxsOf_eq_goodStrips_rawsOf (inp : InputData) (amb : Ambient) :
    ctxsOf inp amb = goodStrips (rawsOf inp amb) := by
  have hbr : branchCtxs amb.branch = goodStrips (branchRaws amb.branch) := by
    cases amb.branch with
    | none => rfl
    | some b =>
      rw [branchRaws, branchCtxs]
      by_cases hb : b.isEmpty
      · rw [if_pos hb, if_pos hb]
        rfl
      · rw [if_neg hb, if_neg hb, goodStrips_cons, stripAdd_branchFrag]
        rfl
  have hauto : (if autoCondOf inp then [stdStored] else []) =
      goodStrips (if autoCondOf inp then [engineering_standards] else []) := by
    by_cases ha : autoCondOf inp
    · rw [if_pos ha, if_pos ha, goodStrips_cons, stripAdd_std]
      rfl
    · rw [if_neg ha, if_neg ha]
      rfl
  rw [ctxsOf, rawsOf, goodStrips_cons, stripAdd_dateFrag,
    goodStrips_append, goodStrips_append, goodStrips_rawOf,
    ← hbr, ← hauto]
  rfl

/-! ### The event record of a successful run -/

theorem logEvent_log (e : Enhancer) (k : String) (v : LogValue) :
    (logEvent e k v).log = dictSet e.log k v := rfl

/-- The finished event record of a successful run (the final injected
text is always recorded because the date fragment is always stored). -/
def logOf (inp : InputData) (amb : Ambient) : List (String × LogValue) :=
  let L5 :=
    dictSet
      (dictSet
        (dictSet
          (dictSet
            (dictSet
              [("timestamp", LogValue.s amb.timestamp),
               ("formatted_date", LogValue.s amb.formattedDate)]
              "original_prompt" (LogValue.s (promptOf inp)))
            "session_id" (LogValue.s (inp.session_id.getD "unknown".toList)))
          "hook_version" (LogValue.s "enhanced".toList))
        "flags" (LogValue.l (flagsOf inp)))
      "clean_prompt" (LogValue.s (cleanRaw inp))
  let L6 :=
    if helpCondOf inp then dictSet L5 "help_request" (LogValue.b true) else L5
  let L7 :=
    if autoCondOf inp then
      dictSet L6 "auto_applied_enhanced_standards" (LogValue.b true)
    else L6
  let L8 := dictSet L7 "applied_flags" (LogValue.l (appliedOf (flagsOf inp)))
  dictSet L8 "injected_context" (LogValue.s (joinNL (ctxsOf inp amb)))

theorem dateStored_shape (d : List Char) :
    ∃ t, dateStored d = '[' :: 'C' :: t := ⟨_, rfl⟩

theorem branchStored_shape (b : List Char) :
    ∃ t, branchStored b = '[' :: 'G' :: t := ⟨_, rfl⟩

theorem ne_cons2 {a b c d : Char} {t t' : List Char} (h : b ≠ d) :
    (a :: b :: t) ≠ (c :: d :: t') := by
  intro he
  injection he with h1 h2
  injection h2 with h3 h4
  exact h h3

theorem dateStored_ne_std (d : List Char) : dateStored d ≠ stdStored := by
  obtain ⟨t, ht⟩ := dateStored_shape d
  obtain ⟨t2, ht2⟩ := stdStored_shape
  rw [ht, ht2]
  intro he
  injection he with h1 h2
  exact absurd h1 (by decide)

theorem branchStored_ne_std (b : List Char) : branchStored b ≠ stdStored := by
  obtain ⟨t, ht⟩ := branchStored_shape b
  obtain ⟨t2, ht2⟩ := stdStored_shape
  rw [ht, ht2]
  intro he
  injection he with h1 h2
  exact absurd h1 (by decide)

theorem count_std_branchCtxs (br : Option (List Char)) :
    (branchCtxs br).count stdStored = 0 := by
  cases br with
  | none => rfl
  | some b =>
    rw [branchCtxs]
    by_cases hb : b.isEmpty
    · rw [if_pos hb]
      rfl
    · rw [if_neg hb]
      rw [List.count_cons_of_ne (fun he => branchStored_ne_std b he.symm)]
      rfl

theorem stripAdd_help : stripAdd help_text = some (stripL help_text) := by
  obtain ⟨t, ht⟩ := help_text_shape
  rw [stripAdd, if_neg (by rw [ht]; simp),
    if_neg (by rw [ht, stripL_cons_of_spc (by decide),
      stripL_cons_of_not_spc (by decide)]; simp)]

theorem joinNL_cons_ne_nil {x : List Char} (hx : x ≠ [])
    (xs : List (List Char)) : joinNL (x :: xs) ≠ [] := by
  cases xs with
  | nil => simpa [joinNL]
  | cons y ys =>
    rw [joinNL]
    intro he
    rcases List.append_eq_nil.mp he with ⟨rfl, -⟩
    exact hx rfl

theorem hasKey_dictSet {d : List (String × LogValue)} {k k2 : String}
    {v : LogValue} :
    hasKey (dictSet d k v) k2 = true ↔ k2 = k ∨ hasKey d k2 = true := by
  rw [dictSet]
  split_ifs with hex
  · rw [hasKey, List.any_map, hasKey]
    constructor
    · rw [List.any_eq_true, List.any_eq_true]
      rintro ⟨p, hp, hq⟩
      simp only [Function.comp_apply] at hq
      by_cases hpk : p.1 = k
      · rw [if_pos hpk] at hq
        simp at hq
        exact Or.inl hq.symm
      · rw [if_neg hpk] at hq
        exact Or.inr ⟨p, hp, hq⟩
    · intro hcase
      rw [List.any_eq_true] at hex ⊢
      rcases hcase with rfl | h2
      · obtain ⟨p, hp, hpk⟩ := hex
        refine ⟨p, hp, ?_⟩
        simp only [Function.comp_apply]
        simp only [decide_eq_true_eq] at hpk
        rw [if_pos hpk]
        simp
      · rw [List.any_eq_true] at h2
        obtain ⟨p, hp, hpk2⟩ := h2
        refine ⟨p, hp, ?_⟩
        simp only [Function.comp_apply]
        simp only [decide_eq_true_eq] at hpk2
        by_cases hpk : p.1 = k
        · rw [if_pos hpk]
          simp only [decide_eq_true_eq]
          rw [← hpk]
          exact hpk2
        · rw [if_neg hpk]
          simp [hpk2]
  · rw [hasKey, List.any_append, hasKey]
    simp only [List.any_cons, List.any_nil, Bool.or_false, Bool.or_eq_true,
      decide_eq_true_eq]
    tauto

theorem hasKey_dictSet_self {d : List (String × LogValue)} {k : String}
    {v : LogValue} : hasKey (dictSet d k v) k = true :=
  hasKey_dictSet.mpr (Or.inl rfl)

theorem hasKey_dictSet_other {d : List (String × LogValue)} {k k2 : String}
    {v : LogValue} (hne : k2 ≠ k) :
    hasKey (dictSet d k v) k2 = hasKey d k2 := by
  cases hcase : hasKey d k2 with
  | true => exact hasKey_dictSet.mpr (Or.inr hcase)
  | false =>
    cases h2 : hasKey (dictSet d k v) k2 with
    | false => rfl
    | true =>
      rcases hasKey_dictSet.mp h2 with rfl | h3
      · exact absurd rfl hne
      · rw [hcase] at h3
        cases h3

theorem contains_iff_mem {l : List (List Char)} {a : List Char} :
    l.contains a = true ↔ a ∈ l := by
  show l.elem a = true ↔ a ∈ l
  exact List.elem_iff

set_option maxRecDepth 200000 in
theorem mainRun_ok_log (inp : InputData) (amb : Ambient) :
    (mainRun (.ok inp) amb).enhancer.log = logOf inp amb := by
  obtain ⟨dS, tS, fD, br, fs⟩ := amb
  rcases br with - | b <;>
    simp only [mainRun, logOf, ctxsOf, rawsOf, flagsOf, cleanRaw, cleanFinal,
      helpCondOf, autoCondOf, promptOf, branchCtxs, branchRaws,
      foldl_flagStep_contexts, foldl_flagStep_log, foldl_flagStep_applied,
      logEvent_contexts, addContext_contexts, logEvent_log, addContext_log,
      contexts_ite, log_ite, stripAdd_dateFrag, stripAdd_branchFrag,
      Option.toList_some, List.nil_append, List.append_assoc,
      List.singleton_append, ite_self, List.isEmpty_cons, List.cons_append] <;>
    try split_ifs <;>
      simp_all [foldl_flagStep_contexts, foldl_flagStep_log,
        foldl_flagStep_applied, logEvent_contexts, addContext_contexts,
        logEvent_log, addContext_log, stripAdd_dateFrag, stripAdd_branchFrag,
        stripAdd_std, List.append_assoc]

set_option maxRecDepth 200000 in
theorem mainRun_ok_spec (inp : InputData) (amb : Ambient) :
    (mainRun (.ok inp) amb).enhancer.contexts = ctxsOf inp amb
    ∧ (mainRun (.ok inp) amb).enhancer.rawCalls = rawsOf inp amb
    ∧ (mainRun (.ok inp) amb).flags = flagsOf inp
    ∧ (mainRun (.ok inp) amb).cleanPrompt = cleanFinal inp
    ∧ (mainRun (.ok inp) amb).applied = appliedOf (flagsOf inp)
    ∧ (mainRun (.ok inp) amb).exitCode = 0
    ∧ (mainRun (.ok inp) amb).stderr = none
    ∧ (mainRun (.ok inp) amb).logAttempted = true
    ∧ (mainRun (.ok inp) amb).stdout = some (joinNL (ctxsOf inp amb)) := by
  obtain ⟨dS, tS, fD, br, fs⟩ := amb
  rcases br with - | b <;>
    refine ⟨?_, ?_, ?_, ?_, ?_, ?_, ?_, ?_, ?_⟩ <;>
      simp only [mainRun, ctxsOf, rawsOf, flagsOf, cleanRaw, cleanFinal,
        helpCondOf, autoCondOf, promptOf, branchCtxs, branchRaws,
        foldl_flagStep_contexts, foldl_flagStep_rawCalls, foldl_flagStep_log,
        foldl_flagStep_applied, logEvent_contexts, addContext_contexts,
        logEvent_rawCalls, addContext_rawCalls, contexts_ite, rawCalls_ite,
        stripAdd_dateFrag, stripAdd_branchFrag, Option.toList_some,
        List.nil_append, List.append_assoc, List.singleton_append,
        ite_self, List.isEmpty_cons, List.cons_append] <;>
      try split_ifs <;>
        simp_all [foldl_flagStep_contexts, foldl_flagStep_rawCalls,
          foldl_flagStep_applied, logEvent_contexts, addContext_contexts,
          logEvent_rawCalls, addContext_rawCalls, stripAdd_dateFrag,
          stripAdd_branchFrag, stripAdd_std, List.append_assoc]

/-! ### The claims -/

set_option maxRecDepth 10000

/-- A concrete ambient environment for the end-to-end instances: a fixed
date, no git branch, and no workflow root or documents on disk. -/
def cAmb : Ambient :=
  { dateStr := "October 12, 2025".toList
    timestamp := "2025-10-12T09:00:00".toList
    formattedDate := "October 12, 2025".toList
    branch := none
    fs := { bmadCore := false, techPrefs := false, stories := none,
            archDocs := false, prd := false } }

/-- C1 counterexample: the double-injection guard checks only the exact
flags "e" and "eng", not the third alias "standards" (nor any other
casing), so on the prompt below the engineering-standards fragment is
stored twice: once by the baseline auto-injection and once by the
explicit-flag handler. -/
theorem C1_counterexample :
    "standards".toList
        ∈ (mainRun (.ok ⟨some "fix the login bug -standards".toList, none⟩)
            cAmb).flags
    ∧ ((mainRun (.ok ⟨some "fix the login bug -standards".toList, none⟩)
          cAmb).enhancer.contexts).count stdStored = 2 := by
  constructor
  · decide
  · decide

/-- C1 amended: when the flag sequence contains the short form "e" or the
long form "eng" (the aliases the guard actually tests) and exactly one of
the extracted flags is a standards alias, the engineering-standards
fragment appears exactly once among the stored fragments: the baseline
auto-injection is suppressed and the explicit handler stores it once. -/
theorem C1_amended (inp : InputData) (amb : Ambient)
    (he : (flagsOf inp).contains "e".toList = true
        ∨ (flagsOf inp).contains "eng".toList = true)
    (h1 : (flagsOf inp).countP isStdAlias = 1) :
    ((mainRun (.ok inp) amb).enhancer.contexts).count stdStored = 1 := by
  obtain ⟨hc, -, -, -, -, -, -, -, -⟩ := mainRun_ok_spec inp amb
  have hauto : autoCondOf inp = false := by
    rw [autoCondOf]
    rcases he with he | he <;> rw [he] <;> simp
  rw [hc, ctxsOf, hauto,
    List.count_cons_of_ne (fun hh => dateStored_ne_std _ hh.symm)]
  simp [List.count_append, count_std_branchCtxs, count_std_collectFrags, h1]

theorem C1_amended_witness :
    ((flagsOf ⟨some "fix the login bug -e".toList, none⟩).contains
          "e".toList = true
      ∧ (flagsOf ⟨some "fix the login bug -e".toList, none⟩).countP
          isStdAlias = 1)
    ∧ ((mainRun (.ok ⟨some "fix the login bug -e".toList, none⟩)
          cAmb).enhancer.contexts).count stdStored = 1 :=
  ⟨⟨by decide, by decide⟩,
   C1_amended ⟨some "fix the login bug -e".toList, none⟩ cAmb
     (Or.inl (by decide)) (by decide)⟩

theorem bmad_shape2 (fs : BmadFS) :
    ∃ t : List Char, bmad fs = '\n' :: '\n' :: '[' :: 'B' :: t := by
  rw [bmad]
  by_cases h : fs.bmadCore
  · rw [if_pos h]
    exact ⟨_, rfl⟩
  · rw [if_neg h]
    exact ⟨_, rfl⟩

theorem stripL_bmad_shape2 (fs : BmadFS) :
    ∃ t : List Char, stripL (bmad fs) = '[' :: 'B' :: rstripL t := by
  obtain ⟨t, ht⟩ := bmad_shape2 fs
  refine ⟨t, ?_⟩
  rw [ht, stripL_cons_of_spc (by decide), stripL_cons_of_spc (by decide),
    stripL_cons_of_not_spc (by decide), rstripL_cons_of_not_spc (by decide)]

/-- C2 counterexample: on the input prompt "-bmad-story -e" with no
workflow root on disk, the extracted flag sequence is just ["e"] (the
token "bmad-story" is not flag-shaped, so it stays in the clean prompt
and no workflow handler runs), and the emitted output does not contain
the workflow-mode fragment at all: neither the "not detected" install
hint the claim expects nor the detected-facts variant. -/
theorem C2_counterexample :
    (mainRun (.ok ⟨some "-bmad-story -e".toList, none⟩) cAmb).flags
        = ["e".toList]
    ∧ hasSub (((mainRun (.ok ⟨some "-bmad-story -e".toList, none⟩)
          cAmb).stdout).getD []) (stripL (bmad cAmb.fs)) = false := by
  constructor
  · decide
  · decide

/-- C2 amended: for the input prompt "-bmad-story -e" under every ambient
environment, the extracted flags are exactly ["e"], the stored fragments
are the date fragment, the optional branch fragment and one
engineering-standards fragment, and the workflow-mode fragment (in
whichever variant the filesystem facts would select) is not among them. -/
theorem C2_amended (amb : Ambient) :
    (mainRun (.ok ⟨some "-bmad-story -e".toList, none⟩) amb).flags
        = ["e".toList]
    ∧ (mainRun (.ok ⟨some "-bmad-story -e".toList, none⟩)
          amb).enhancer.contexts
        = dateStored amb.dateStr :: (branchCtxs amb.branch ++ [stdStored])
    ∧ stripL (bmad amb.fs)
        ∉ (mainRun (.ok ⟨some "-bmad-story -e".toList, none⟩)
            amb).enhancer.contexts := by
  have hfl : flagsOf ⟨some "-bmad-story -e".toList, none⟩ = ["e".toList] := by
    decide
  obtain ⟨hc, -, hf, -, -, -, -, -, -⟩ :=
    mainRun_ok_spec ⟨some "-bmad-story -e".toList, none⟩ amb
  have hauto : autoCondOf ⟨some "-bmad-story -e".toList, none⟩ = false := by
    rw [autoCondOf, hfl]
    decide
  have hctx : (mainRun (.ok ⟨some "-bmad-story -e".toList, none⟩)
      amb).enhancer.contexts
      = dateStored amb.dateStr :: (branchCtxs amb.branch ++ [stdStored]) := by
    rw [hc, ctxsOf, hauto, hfl,
      collectFrags_cons_some amb.fs []
        (show get_enhanced_flag_handler "e".toList = some HandlerId.std
          from rfl),
      show runHandler amb.fs HandlerId.std = engineering_standards from rfl,
      stripAdd_std]
    simp [collectFrags]
  refine ⟨hf.trans hfl, hctx, ?_⟩
  rw [hctx]
  obtain ⟨tb, htb⟩ := stripL_bmad_shape2 amb.fs
  intro hmem
  rcases List.mem_cons.mp hmem with heq | hmem2
  · obtain ⟨td, htd⟩ := dateStored_shape amb.dateStr
    rw [htb, htd] at heq
    simp at heq
  · rcases List.mem_append.mp hmem2 with hmem3 | hmem4
    · cases hbr : amb.branch with
      | none =>
        rw [hbr] at hmem3
        cases hmem3
      | some b =>
        rw [hbr, branchCtxs] at hmem3
        split_ifs at hmem3
        · cases hmem3
        · have heq := List.mem_singleton.mp hmem3
          obtain ⟨tg, htg⟩ := branchStored_shape b
          rw [htb, htg] at heq
          simp at heq
    · have heq := List.mem_singleton.mp hmem4
      obtain ⟨ts, hts⟩ := stdStored_shape
      rw [htb, hts] at heq
      simp at heq

/-- C3: for every prompt on which the search finds a trailing flag run
(at index `i`), the clean prompt plus the matched region reconstructs the
prompt modulo whitespace and the extracted flags are the region's maximal
word runs, in left-to-right order with the leading dashes stripped; for
every prompt with no match at any position, the prompt is returned
unchanged with an empty flag sequence. -/
theorem C3_flag_extractor :
    (∀ (p : List Char) (i : Nat), findMatchStart p = some i →
      eraseWS ((parse_flags p).1 ++ (coreStr p).drop i) = eraseWS p ∧
      (parse_flags p).2 = wordRuns ((coreStr p).drop i))
    ∧ (∀ p : List Char, (∀ j, j ≤ p.length → matchesAt p j = false) →
        parse_flags p = (p, [])) :=
  ⟨fun _ _ h => parse_flags_reconstruct h, fun _ h => parse_flags_nomatch h⟩

theorem C3_flag_extractor_witness :
    (findMatchStart "fix the bug -e -test".toList = some 11
      ∧ eraseWS ((parse_flags "fix the bug -e -test".toList).1
          ++ (coreStr "fix the bug -e -test".toList).drop 11)
        = eraseWS "fix the bug -e -test".toList
      ∧ (parse_flags "fix the bug -e -test".toList).2
        = wordRuns ((coreStr "fix the bug -e -test".toList).drop 11))
    ∧ ((∀ j, j ≤ ("hello world".toList).length →
          matchesAt "hello world".toList j = false)
      ∧ parse_flags "hello world".toList = ("hello world".toList, [])) :=
  ⟨⟨by decide, C3_flag_extractor.1 _ 11 (by decide)⟩,
   ⟨by decide, C3_flag_extractor.2 _ (by decide)⟩⟩

/-- C4: the extractor is idempotent on its own clean-prompt output:
re-running it yields the same clean prompt and an empty flag sequence. -/
theorem C4_idempotent (p : List Char) :
    parse_flags (parse_flags p).1 = ((parse_flags p).1, []) :=
  parse_flags_idem p

/-- C5: `should_apply_defaults` returns false exactly when the
case-folded clean prompt matches one of the four fixed skip patterns
(shell/inspection-or-interrogative, retrieval verb, leading question
mark, greeting/farewell); it returns true for every other prompt, and
its result never depends on the flag-sequence argument.  The listed
instances check the spec's examples. -/
theorem C5_default_policy :
    (∀ (p : List Char) (fl : List (List Char)),
      should_apply_defaults p fl = false ↔
        (skipShellPat (lowerL p) = true ∨ skipRetrievalPat (lowerL p) = true ∨
          skipQMarkPat (lowerL p) = true ∨ skipGreetPat (lowerL p) = true))
    ∧ (∀ (p : List Char) (fl₁ fl₂ : List (List Char)),
        should_apply_defaults p fl₁ = should_apply_defaults p fl₂)
    ∧ should_apply_defaults "hello".toList [] = false
    ∧ should_apply_defaults "?".toList [] = false
    ∧ should_apply_defaults "ls -la".toList [] = false
    ∧ should_apply_defaults "what time is it".toList [] = false
    ∧ should_apply_defaults "fix the login bug".toList [] = true := by
  refine ⟨?_, fun p fl₁ fl₂ => rfl, by decide, by decide, by decide,
    by decide, by decide⟩
  intro p fl
  rw [should_apply_defaults]
  cases h1 : skipShellPat (lowerL p) <;> cases h2 : skipRetrievalPat (lowerL p) <;>
    cases h3 : skipQMarkPat (lowerL p) <;> cases h4 : skipGreetPat (lowerL p) <;>
    simp [skip_patterns, h1, h2, h3, h4]

/-- C6 counterexample: the event record of the run below omits the
"help_request" field entirely — the derived boolean fields are written
only when their condition holds, not stored with a neutral default. -/
theorem C6_counterexample :
    hasKey ((mainRun (.ok ⟨some "fix the login bug".toList, none⟩)
        cAmb).enhancer.log) "help_request" = false := by
  decide

/-- C6 amended: every run that reaches emission records the nine
always-written fields (timestamp, formatted date, original prompt,
session id, hook version, flag list, clean prompt, applied-flags list,
injected text), but each derived boolean field is present exactly when
its condition held: "help_request" exactly on the help override and
"auto_applied_enhanced_standards" exactly on the baseline
auto-injection; when the condition is false the key is omitted. -/
theorem C6_amended (inp : InputData) (amb : Ambient) :
    (∀ k ∈ (["timestamp", "formatted_date", "original_prompt", "session_id",
        "hook_version", "flags", "clean_prompt", "applied_flags",
        "injected_context"] : List String),
      hasKey ((mainRun (.ok inp) amb).enhancer.log) k = true)
    ∧ hasKey ((mainRun (.ok inp) amb).enhancer.log) "help_request"
        = helpCondOf inp
    ∧ hasKey ((mainRun (.ok inp) amb).enhancer.log)
        "auto_applied_enhanced_standards" = autoCondOf inp := by
  rw [mainRun_ok_log]
  by_cases h6 : helpCondOf inp <;> by_cases h7 : autoCondOf inp <;>
    simp [logOf, h6, h7, dictSet, hasKey]

/-- C7 counterexample: the fragments are not concatenated unaltered — on
the concrete run below the output differs from the newline-join of the
non-whitespace-only raw fragments, because `add_context` strips each
fragment before storing it. -/
theorem C7_counterexample :
    (mainRun (.ok ⟨some "fix the login bug".toList, none⟩) cAmb).stdout
      ≠ some (joinNL
          (((mainRun (.ok ⟨some "fix the login bug".toList, none⟩)
              cAmb).enhancer.rawCalls).filter
            (fun c => !(stripL c).isEmpty))) := by
  decide

/-- C7 amended: the emitted EnhancedContext equals the newline-join, in
call order, of the stripped versions of exactly those fragments passed to
the accumulator that are nonempty and not whitespace-only (no fragment is
reordered or deduplicated, but each is stripped of surrounding whitespace
before storage). -/
theorem C7_amended (inp : InputData) (amb : Ambient) :
    (mainRun (.ok inp) amb).enhancer.contexts
        = goodStrips ((mainRun (.ok inp) amb).enhancer.rawCalls)
    ∧ (mainRun (.ok inp) amb).stdout
        = some (joinNL ((mainRun (.ok inp) amb).enhancer.contexts)) := by
  obtain ⟨h1, h2, -, -, -, -, -, -, h9⟩ := mainRun_ok_spec inp amb
  refine ⟨?_, ?_⟩
  · rw [h1, h2, ctxsOf_eq_goodStrips_rawsOf]
  · rw [h9, h1]

/-- C8: when the prompt left after flag extraction is empty or
whitespace-only and the extracted flags are exactly ["hh"], the clean
prompt is overridden to the literal help-request phrase, and the help
fragment is the only handler-produced fragment stored besides the
ambient date and branch fragments: in particular the baseline
engineering-standards fragment is not injected. -/
theorem C8_help_short_circuit (inp : InputData) (amb : Ambient)
    (h1 : (stripL (cleanRaw inp)).isEmpty = true)
    (h2 : flagsOf inp = ["hh".toList]) :
    (mainRun (.ok inp) amb).cleanPrompt = helpPhrase
    ∧ (mainRun (.ok inp) amb).enhancer.contexts
        = dateStored amb.dateStr
            :: (branchCtxs amb.branch ++ [stripL help_text])
    ∧ ((mainRun (.ok inp) amb).enhancer.contexts).count stdStored = 0 := by
  obtain ⟨hc, -, -, hcp, -, -, -, -, -⟩ := mainRun_ok_spec inp amb
  have hhelp : helpCondOf inp = true := by
    rw [helpCondOf, h1, h2]
    decide
  have hauto : autoCondOf inp = false := by
    rw [autoCondOf, h2]
    rfl
  have hne : stripL help_text ≠ stdStored :=
    @runHandler_ne_std amb.fs HandlerId.helpH
      (fun hcon => HandlerId.noConfusion hcon)
  have hctx : (mainRun (.ok inp) amb).enhancer.contexts
      = dateStored amb.dateStr
          :: (branchCtxs amb.branch ++ [stripL help_text]) := by
    rw [hc, ctxsOf, hauto, h2,
      collectFrags_cons_some amb.fs []
        (show get_enhanced_flag_handler "hh".toList = some HandlerId.helpH
          from rfl),
      show runHandler amb.fs HandlerId.helpH = help_text from rfl,
      stripAdd_help]
    simp [collectFrags]
  refine ⟨?_, hctx, ?_⟩
  · rw [hcp, cleanFinal, hhelp]
    simp
  · rw [hctx, List.count_cons_of_ne (fun hh => dateStored_ne_std _ hh.symm),
      List.count_append, count_std_branchCtxs,
      List.count_cons_of_ne (fun hh => hne hh.symm), List.count_nil]

theorem C8_help_short_circuit_witness :
    ((stripL (cleanRaw ⟨some "-hh".toList, none⟩)).isEmpty = true
      ∧ flagsOf ⟨some "-hh".toList, none⟩ = ["hh".toList])
    ∧ (mainRun (.ok ⟨some "-hh".toList, none⟩) cAmb).cleanPrompt
        = helpPhrase :=
  ⟨⟨by decide, by decide⟩,
   (C8_help_short_circuit ⟨some "-hh".toList, none⟩ cAmb (by decide)
      (by decide)).1⟩

/-- C9: every run that reaches the end of processing exits with status 0;
a failed stdin parse is caught at the outermost level, writes one
bracketed diagnostic line to the error stream, and exits with status 1
without emitting output or attempting the log write. -/
theorem C9_exit_codes :
    (∀ (inp : InputData) (amb : Ambient),
      (mainRun (.ok inp) amb).exitCode = 0
      ∧ (mainRun (.ok inp) amb).stderr = none
      ∧ (mainRun (.ok inp) amb).logAttempted = true)
    ∧ (∀ (e : List Char) (amb : Ambient),
      (mainRun (.error e) amb).exitCode = 1
      ∧ (mainRun (.error e) amb).stdout = none
      ∧ (mainRun (.error e) amb).stderr
          = some ("[Enhanced Hook Error: ".toList ++ e ++ "]".toList)
      ∧ (mainRun (.error e) amb).logAttempted = false) := by
  constructor
  · intro inp amb
    obtain ⟨-, -, -, -, -, h6, h7, h8, -⟩ := mainRun_ok_spec inp amb
    exact ⟨h6, h7, h8⟩
  · intro e amb
    exact ⟨rfl, rfl, rfl, rfl⟩

/-- C10 (implicit): on every successful run the fragment list is nonempty
(the date fragment is unconditionally stored first and never strips to
empty), so the process always prints a nonempty enhanced context: the
empty-output success case is unreachable. -/
theorem C10_nonempty_output (inp : InputData) (amb : Ambient) :
    ∃ out : List Char,
      (mainRun (.ok inp) amb).stdout = some out ∧ out ≠ []
      ∧ (mainRun (.ok inp) amb).enhancer.contexts ≠ [] := by
  obtain ⟨h1, -, -, -, -, -, -, -, h9⟩ := mainRun_ok_spec inp amb
  obtain ⟨t, ht⟩ := dateStored_shape amb.dateStr
  refine ⟨joinNL (ctxsOf inp amb), h9, ?_, ?_⟩
  · rw [ctxsOf]
    exact joinNL_cons_ne_nil (by rw [ht]; simp) _
  · rw [h1, ctxsOf]
    simp

end Hook
